import Mathlib

/-!
Verification of the core of `boggle.C` (2015, Lee Chu): a trie-backed
dictionary plus a backtracking depth-first search that enumerates the
dictionary words spellable on a square letter grid.

The C code is shallowly embedded: the trie is an inductive tree whose 26
child pointers become a length-26 `List (Option Trie)`; the mutable
control block `BoggleCB` becomes a record threaded through the functions;
the unbounded C recursion of `findSolution` is modelled with an explicit
fuel argument (the fuel theorems show any fuel above `boardSize^2` gives
the same result, which is the C termination argument); `assert` failures
are modelled as `none` results.  Machine `int` row/column arithmetic is
modelled with `Int` (no overflow is reachable for the small boards the
program handles, and the source performs no wrapping arithmetic).
-/

set_option maxHeartbeats 2000000

/-- `#define ALPHABET_SIZE 26` -/
def ALPHABET_SIZE : Nat := 26

/-- `#define MAX_WORD_LENGTH 80` -/
def MAX_WORD_LENGTH : Nat := 80

/-- `#define FLAGS_ISWORD 0x1` -/
def FLAGS_ISWORD : Nat := 1

/-- The NUL character `'\0'` used by the C code for empty buffer cells. -/
def nullCh : Char := Char.ofNat 0

/-- `struct Trie { char ch; int flags; Trie *child[ALPHABET_SIZE]; }`.
A NULL child pointer is `none`; every allocated node has a 26-entry
child array. -/
inductive Trie where
  | mk (ch : Char) (flags : Nat) (child : List (Option Trie)) : Trie

/-- Read `t->ch`. -/
def Trie.chOf : Trie → Char
  | .mk c _ _ => c

/-- Read `t->flags`. -/
def Trie.flagsOf : Trie → Nat
  | .mk _ fl _ => fl

/-- Read `t->child[ix]` (NULL when out of range, which the C code never is
for letter indices). -/
def Trie.childAt : Trie → Nat → Option Trie
  | .mk _ _ cs, ix => cs.getD ix none

/-- Write `t->child[ix] = c`. -/
def Trie.setChild : Trie → Nat → Option Trie → Trie
  | .mk ch fl cs, ix, c => .mk ch fl (cs.set ix c)

/-- Write `t->ch = c`. -/
def Trie.setCh : Trie → Char → Trie
  | .mk _ fl cs, c => .mk c fl cs

/-- Write `t->flags |= FLAGS_ISWORD`. -/
def Trie.setWordFlag : Trie → Trie
  | .mk ch fl cs => .mk ch (fl ||| FLAGS_ISWORD) cs

/-- `trieAllocNode()`: a fresh zeroed node (`memset` leaves `ch = '\0'`,
`flags = 0` and all 26 child pointers NULL).  Allocation failure is not
modelled; the callers count successful allocations explicitly. -/
def trieAllocNode : Trie := .mk nullCh 0 (List.replicate ALPHABET_SIZE none)

mutual

/-- `trieFree()`: recursively free the 26 children, then the node itself,
incrementing `trieFreeCalls` once per freed node and leaving the handle
NULL.  The result is the final handle (always `none`) and the number of
`free` calls performed. -/
def trieFree : Option Trie → Option Trie × Nat
  | none => (none, 0)
  | some (.mk _ _ cs) => (none, (trieFreeList cs).2 + 1)

/-- The `for` loop inside `trieFree` over the child array. -/
def trieFreeList : List (Option Trie) → List (Option Trie) × Nat
  | [] => ([], 0)
  | o :: rest => ((trieFree o).1 :: (trieFreeList rest).1, (trieFree o).2 + (trieFreeList rest).2)

end

/-- `getCharIndex()`: map a letter to 0..25 (`tolower(c) - 'a'`).  The C
code computes this with signed arithmetic and then indexes arrays with
it; the program only feeds it alphabetic characters, for which the value
is 0..25, so the embedding uses truncating `Nat` subtraction. -/
def getCharIndex (c : Char) : Nat := c.toLower.toNat - 'a'.toNat

/-- The descent loop of `trieAddWord`, positioned at `curNode = t` with
the remaining letters of the word still to process.  Returns the new
subtree, the number of `trieAllocNode` calls made, and `wordAdded`.
When the letters run out the loop has ended with `i == stringLength`, so
the node the loop last visited (`prevNode = t`) is flagged as a word and
`wordAdded` is set.  A letter with a zero histogram count aborts the
word (`break`), leaving `wordAdded` false. -/
def trieAddWordGo (hist : List Nat) : Trie → List Char → Trie × Nat × Bool
  | t, [] => (t.setWordFlag, 0, true)
  | t, c :: rest =>
    let ix := getCharIndex c
    if hist.getD ix 0 = 0 then (t, 0, false)
    else
      let alloc : Trie × Nat :=
        match t.childAt ix with
        | none => (trieAllocNode, 1)
        | some ch0 => (ch0, 0)
      let step := trieAddWordGo hist (alloc.1.setCh c) rest
      (t.setChild ix step.1, alloc.2 + step.2.1, step.2.2)

/-- `trieAddWord()`: add one word to the trie rooted at `root`.  For the
empty word the loop body never runs, `prevNode` still equals the root and
`assert(prevNode != bCB->dict)` fails, modelled as `none`. -/
def trieAddWord (hist : List Nat) (root : Trie) (word : List Char) :
    Option (Trie × Nat × Bool) :=
  match word with
  | [] => none
  | _ :: _ => some (trieAddWordGo hist root word)

/-- `initBoggle()`: allocate the root node; `trieAllocCalls` becomes 1. -/
def initBoggle : Trie × Nat := (trieAllocNode, 1)

/-- `trieBuild()`: feed the word list into the trie.  Words longer than
`boardSize*boardSize` are skipped before touching the trie.  Returns the
new trie, the total number of node allocations, and the `wordCount` the
program prints.  `none` propagates an aborted `trieAddWord`. -/
def trieBuild (hist : List Nat) (maxStringLength : Nat) :
    List (List Char) → Trie → Option (Trie × Nat × Nat)
  | [], t => some (t, 0, 0)
  | w :: rest, t =>
    if w.length ≤ maxStringLength then
      match trieAddWord hist t w with
      | none => none
      | some (t1, a, added) =>
        match trieBuild hist maxStringLength rest t1 with
        | none => none
        | some (t2, a2, wc) => some (t2, a + a2, (if added then 1 else 0) + wc)
    else trieBuild hist maxStringLength rest t

/-- `struct BoggleCB`: the mutable search state.  `board` and `used` are
flat row-major arrays of `boardSize * boardSize` cells; `search` is the
80-byte word buffer. -/
@[ext]

structure BoggleCB where
  search : List Char
  board : List Char
  used : List Bool
  boardSize : Nat
  maxBoardSize : Int
deriving DecidableEq

/-- One line of `findSolution`'s output: the word printed from the search
buffer and the `(row, col)` arguments of the frame that printed it.  The
`path` field is ghost instrumentation recording the cells the search
walked for this word, in order, starting at the cell where depth 0
began; the C program does not store it, but the claims quantify over it. -/
structure Found where
  word : List Char
  row : Int
  col : Int
  path : List (Int × Int)
deriving DecidableEq

/-- `getBoardIndex()`: flatten `(row, col)` to `boardSize*row + col`. -/
def getBoardIndex (boardSize : Nat) (row col : Int) : Int :=
  boardSize * row + col

/-- `markUsed()`: set the cell's in-use bit and write its letter into the
word buffer at `stringIndex`.  (The C `assert(used[boardIndex]==false)`
holds at every reachable call, established by the invariants below.) -/
def markUsed (s : BoggleCB) (row col : Int) (stringIndex : Nat) : BoggleCB :=
  let bi := (getBoardIndex s.boardSize row col).toNat
  { s with used := s.used.set bi true,
           search := s.search.set stringIndex (s.board.getD bi nullCh) }

/-- `markUnused()`: clear the cell's in-use bit and truncate the word
buffer at `stringIndex`. -/
def markUnused (s : BoggleCB) (row col : Int) (stringIndex : Nat) : BoggleCB :=
  let bi := (getBoardIndex s.boardSize row col).toNat
  { s with used := s.used.set bi false,
           search := s.search.set stringIndex nullCh }

/-- `isValid()`: the move is on the board (note the lenient
`boardIndex <= maxBoardSize` upper check), the cell is not in use, and
the current trie node has a child for the cell's letter. -/
def isValid (s : BoggleCB) (boardIndex : Int) (node : Trie) : Bool :=
  0 ≤ boardIndex && boardIndex ≤ s.maxBoardSize &&
  !(s.used.getD boardIndex.toNat false) &&
  (node.childAt (getCharIndex (s.board.getD boardIndex.toNat nullCh))).isSome

/-- What `printf("%s", bCB->search)` prints: the buffer up to the first
NUL byte. -/
def cString (l : List Char) : List Char := l.takeWhile (fun c => c ≠ nullCh)

/-- The `-1, 0, 1` neighbour offsets of the two `for` loops in
`findSolution`, in source order. -/
def diffs : List Int := [-1, 0, 1]

/-- Body of `findSolution`'s inner (`colDiff`) loop.  `F` is the
recursive call at the remaining fuel.  The `none` fallback of the match
is unreachable: `isValid` has just checked that the child exists. -/
def innerStep (F : BoggleCB → Int → Int → Trie → Nat → List (Int × Int) → BoggleCB × List Found)
    (col newRow : Int) (node : Trie) (stringIndex : Nat) (path : List (Int × Int))
    (acc : BoggleCB × List Found) (colDiff : Int) : BoggleCB × List Found :=
  let s := acc.1
  let newCol := col + colDiff
  let move := getBoardIndex s.boardSize newRow newCol
  if 0 ≤ newCol && newCol < (s.boardSize : Int) && isValid s move node then
    match node.childAt (getCharIndex (s.board.getD move.toNat nullCh)) with
    | some childNode =>
      let s1 := markUsed s newRow newCol stringIndex
      let r := F s1 newRow newCol childNode (stringIndex + 1) (path ++ [(newRow, newCol)])
      (markUnused r.1 newRow newCol stringIndex, acc.2 ++ r.2)
    | none => acc
  else acc

/-- Body of `findSolution`'s outer (`rowDiff`) loop. -/
def outerStep (F : BoggleCB → Int → Int → Trie → Nat → List (Int × Int) → BoggleCB × List Found)
    (row col : Int) (node : Trie) (stringIndex : Nat) (path : List (Int × Int))
    (acc : BoggleCB × List Found) (rowDiff : Int) : BoggleCB × List Found :=
  let newRow := row + rowDiff
  if 0 ≤ newRow && newRow < (acc.1.boardSize : Int) then
    diffs.foldl (innerStep F col newRow node stringIndex path) acc
  else acc

/-- `findSolution()`: if the current node is a word node, print the
buffer together with the current frame's `(row, col)`; then try the 3x3
neighbourhood in row-major order, marking, recursing and unmarking.  The
first argument is fuel bounding the recursion depth; the C function has
none, and the fuel theorems below show that any fuel above
`boardSize*boardSize` is enough, which is exactly the C termination
argument.  `path` is the ghost path of the current word. -/
def findSolution : Nat → BoggleCB → Int → Int → Trie → Nat → List (Int × Int) → BoggleCB × List Found
  | 0, s, _, _, _, _, _ => (s, [])
  | fuel + 1, s, row, col, node, stringIndex, path =>
    let here : List Found :=
      if node.flagsOf &&& FLAGS_ISWORD ≠ 0 then [⟨cString s.search, row, col, path⟩] else []
    diffs.foldl (outerStep (findSolution fuel) row col node stringIndex path) (s, here)

/-- The row-major cell iteration of `playBoggle`'s two `for` loops. -/
def boardCells (n : Nat) : List (Int × Int) :=
  ((List.range n).map (fun i => (List.range n).map (fun j => (Int.ofNat i, Int.ofNat j)))).flatten

/-- The loop body of `playBoggle`, one iteration per cell: mark the cell
used at depth 0 and call `findSolution` at depth 1 on the root child for
the cell's letter.  When that child pointer is NULL the C code still
calls `findSolution`, whose `assert(node != NULL)` fails; this abort is
modelled as `none`. -/
def playCells (dict : Trie) : List (Int × Int) → BoggleCB → Option (BoggleCB × List Found)
  | [], s => some (s, [])
  | (i, j) :: rest, s =>
    let s1 := markUsed s i j 0
    let charIndex := getCharIndex (s1.board.getD (getBoardIndex s1.boardSize i j).toNat nullCh)
    match dict.childAt charIndex with
    | none => none
    | some node =>
      let r := findSolution (s1.boardSize * s1.boardSize + 1) s1 i j node 1 [(i, j)]
      let s2 := markUnused r.1 i j 0
      match playCells dict rest s2 with
      | none => none
      | some (s3, out2) => some (s3, r.2 ++ out2)

/-- `playBoggle()`: check `assert(sizeof(search) >= boardSize^2)`, clear
the word buffer, then run the per-cell loop. -/
def playBoggle (s0 : BoggleCB) (dict : Trie) : Option (BoggleCB × List Found) :=
  if s0.boardSize * s0.boardSize ≤ MAX_WORD_LENGTH then
    playCells dict (boardCells s0.boardSize)
      { s0 with search := List.replicate MAX_WORD_LENGTH nullCh }
  else none

/-- One step of the histogram loop: `histogram[arrayIndex]++` for the
cell at `(row, col)`. -/
def histIncr (boardSize : Nat) (board : List Char) (row : Nat) (h2 : List Nat)
    (col : Nat) : List Nat :=
  let ai := getCharIndex
    (board.getD (getBoardIndex boardSize (Int.ofNat row) (Int.ofNat col)).toNat nullCh)
  h2.set ai (h2.getD ai 0 + 1)

/-- The inner (`col`) loop of the histogram construction. -/
def histRow (boardSize : Nat) (board : List Char) (h : List Nat) (row : Nat) : List Nat :=
  (List.range boardSize).foldl (histIncr boardSize board row) h

/-- The histogram loop of `main`: count each board letter's occurrences
(rows then columns, indexing the flat board array). -/
def buildHistogram (boardSize : Nat) (board : List Char) : List Nat :=
  (List.range boardSize).foldl (histRow boardSize board) (List.replicate ALPHABET_SIZE 0)

-- Concrete inputs used by the witnesses and counterexamples below.

/-- A 1x1 board holding the single letter a. -/
def oneBoard : BoggleCB :=
  { search := List.replicate MAX_WORD_LENGTH nullCh
    board := ['a']
    used := [false]
    boardSize := 1
    maxBoardSize := 1 }

/-- The dictionary trie the program builds for `oneBoard` from the word
list consisting of the single word "a". -/
def oneDict : Trie :=
  match trieBuild (buildHistogram 1 ['a']) 1 [['a']] initBoggle.1 with
  | some r => r.1
  | none => trieAllocNode

/-- The 2x2 board `ab / cd` from the spec's Example 1. -/
def abcdBoard : BoggleCB :=
  { search := List.replicate MAX_WORD_LENGTH nullCh
    board := ['a', 'b', 'c', 'd']
    used := [false, false, false, false]
    boardSize := 2
    maxBoardSize := 4 }

/-- The histogram of `abcdBoard`. -/
def abcdHist : List Nat := buildHistogram 2 ['a', 'b', 'c', 'd']

/-- The trie for word list `{ab, b, c, d}` on `abcdBoard` (every board
letter starts some word, so `playBoggle` completes without tripping the
NULL-node assertion). -/
def abcdDict : Trie :=
  match trieBuild abcdHist 4 [['a', 'b'], ['b'], ['c'], ['d']] initBoggle.1 with
  | some r => r.1
  | none => trieAllocNode

/-- Ghost: the flat board index of a cell. -/
def toIdx (n : Nat) (p : Int × Int) : Nat := (getBoardIndex n p.1 p.2).toNat

/-- A cell lies on the `n` by `n` board. -/
def cellOn (n : Nat) (p : Int × Int) : Prop :=
  0 ≤ p.1 ∧ p.1 < (n : Int) ∧ 0 ≤ p.2 ∧ p.2 < (n : Int)

instance (n : Nat) (p : Int × Int) : Decidable (cellOn n p) :=
  inferInstanceAs (Decidable (0 ≤ p.1 ∧ p.1 < (n : Int) ∧ 0 ≤ p.2 ∧ p.2 < (n : Int)))

/-- The character is a lowercase Latin letter (a..z). -/
def isLowerAZ (c : Char) : Prop := 97 ≤ c.toNat ∧ c.toNat ≤ 122

instance (c : Char) : Decidable (isLowerAZ c) :=
  inferInstanceAs (Decidable (97 ≤ c.toNat ∧ c.toNat ≤ 122))

/-- The parts of the control block that a `findSolution` call leaves
untouched on return: everything except transient buffer contents, and
even the `used` mask is bit-for-bit restored. -/
def Pres (s t : BoggleCB) : Prop :=
  t.used = s.used ∧ t.board = s.board ∧ t.boardSize = s.boardSize ∧
  t.maxBoardSize = s.maxBoardSize ∧ t.search.length = s.search.length

-- The search invariant: the used mask mirrors the current path, the
-- search buffer holds exactly the path's letters, and the path is a
-- non-repeating chain of adjacent on-board cells.

/-- Chebyshev adjacency of two distinct cells: row and column each
differ by at most 1 and the cells are not identical. -/
def chebAdj (a b : Int × Int) : Prop :=
  (b.1 - a.1).natAbs ≤ 1 ∧ (b.2 - a.2).natAbs ≤ 1 ∧ a ≠ b

instance (a b : Int × Int) : Decidable (chebAdj a b) :=
  inferInstanceAs (Decidable ((b.1 - a.1).natAbs ≤ 1 ∧ (b.2 - a.2).natAbs ≤ 1 ∧ a ≠ b))

/-- Well-formedness of the control block relative to the ghost path of
the word under construction and the current depth `ix`. -/
structure StateInv (s : BoggleCB) (path : List (Int × Int)) (ix : Nat) : Prop where
  hmbs : s.maxBoardSize = ((s.boardSize * s.boardSize : Nat) : Int)
  hblen : s.board.length = s.boardSize * s.boardSize
  hulen : s.used.length = s.boardSize * s.boardSize
  hslen : s.search.length = MAX_WORD_LENGTH
  hcap : s.boardSize * s.boardSize ≤ MAX_WORD_LENGTH
  hlower : ∀ ch ∈ s.board, isLowerAZ ch
  hused : ∀ m, m < s.boardSize * s.boardSize →
    (s.used.getD m false = true ↔ m ∈ path.map (toIdx s.boardSize))
  hix : ix = path.length
  hsearch : ∀ j, j < MAX_WORD_LENGTH → (s.search.getD j nullCh ≠ nullCh ↔ j < ix)
  hchars : ∀ ch ∈ s.search, ch ≠ nullCh → ch ∈ s.board

/-- The ghost path is a valid word path ending at the current cell. -/
structure PathOK (n : Nat) (path : List (Int × Int)) (row col : Int) : Prop where
  hne : path ≠ []
  hlast : path.getLast? = some (row, col)
  hon : ∀ p ∈ path, cellOn n p
  hchain : List.Chain' chebAdj path
  hnd : (path.map (toIdx n)).Nodup

/-- Everything the claims assert about one emitted word. -/
def FoundOK (n : Nat) (board : List Char) (f : Found) : Prop :=
  f.path ≠ [] ∧
  f.path.getLast? = some (f.row, f.col) ∧
  (∀ p ∈ f.path, cellOn n p) ∧
  List.Chain' chebAdj f.path ∧
  (f.path.map (toIdx n)).Nodup ∧
  f.word.length = f.path.length ∧
  (∀ ch ∈ f.word, ch ∈ board) ∧
  f.path.length ≤ n * n

/-- The accumulator contract of the neighbour loops: the state component
is still exactly the frame's entry state, and everything emitted so far
is a well-formed word report. -/
def AccOK (s : BoggleCB) (r : BoggleCB × List Found) : Prop :=
  r.1 = s ∧ ∀ f ∈ r.2, FoundOK s.boardSize s.board f

/-- Well-formedness of the control block exactly as `main` hands it to
`playBoggle`: a full lowercase board, an all-false in-use mask, and
`maxBoardSize = boardSize*boardSize`. -/
def WF0 (s : BoggleCB) : Prop :=
  s.board.length = s.boardSize * s.boardSize ∧
  s.used = List.replicate (s.boardSize * s.boardSize) false ∧
  (∀ ch ∈ s.board, isLowerAZ ch) ∧
  s.maxBoardSize = ((s.boardSize * s.boardSize : Nat) : Int)

instance (s : BoggleCB) : Decidable (WF0 s) :=
  inferInstanceAs (Decidable (_ ∧ _ ∧ (∀ ch ∈ s.board, isLowerAZ ch) ∧ _))

-- Trie lemmas: allocation accounting and idempotent re-insertion.

/-- Every node of the tree has the 26-entry child array the C struct
declares (true of every tree the program builds, since all nodes come
from `trieAllocNode`). -/
inductive TrieWF : Trie → Prop where
  | mk {ch : Char} {fl : Nat} {cs : List (Option Trie)}
      (hl : cs.length = ALPHABET_SIZE)
      (hc : ∀ t, some t ∈ cs → TrieWF t) : TrieWF (.mk ch fl cs)

-- Concrete objects for the witnesses and counterexamples.

/-- The trie built for the 1x1 board "a" from word list `{aa}`: the word
is skipped by the length filter, so the root has no children at all. -/
def aaDict : Trie :=
  match trieBuild (buildHistogram 1 ['a']) 1 [['a', 'a']] initBoggle.1 with
  | some r => r.1
  | none => trieAllocNode

/-- The trie after inserting "ab" into a fresh root with an all-ones
histogram. -/
def tabTrie : Trie :=
  match trieAddWord (List.replicate 26 1) trieAllocNode ['a', 'b'] with
  | some r => r.1
  | none => trieAllocNode

/-- The trie after building the one-word list `{a}`. -/
def aTrie : Trie :=
  match trieBuild (List.replicate 26 1) 1 [['a']] initBoggle.1 with
  | some r => r.1
  | none => trieAllocNode

/-- Result of the full solve on the 1x1 board. -/
def oneRes : BoggleCB × List Found := (playBoggle oneBoard oneDict).getD (oneBoard, [])

/-- Result of the full solve on the 2x2 board. -/
def abcdRes : BoggleCB × List Found := (playBoggle abcdBoard abcdDict).getD (abcdBoard, [])

/-- The single report of the 1x1 solve. -/
def oneFound : Found := ⟨['a'], 0, 0, [(0, 0)]⟩

/-- The report for "ab" in the 2x2 solve: printed at its last cell. -/
def abFound : Found := ⟨['a', 'b'], 0, 1, [(0, 0), (0, 1)]⟩

/-- The root child for letter a in the 1x1 dictionary. -/
def oneNode : Trie := (oneDict.childAt (getCharIndex 'a')).getD trieAllocNode

/-- The 1x1 state after the driver marks cell (0,0) at depth 0. -/
def oneMarked : BoggleCB := markUsed oneBoard 0 0 0

-- Generic list and arithmetic helpers.

theorem getD_set_self {α : Type} (l : List α) (i : Nat) (v d : α) (h : i < l.length) :
    (l.set i v).getD i d = v := by
  rw [List.getD_eq_getElem?_getD, List.getElem?_set]
  simp [h]

theorem getD_set_ne {α : Type} (l : List α) {i j : Nat} (v d : α) (h : i ≠ j) :
    (l.set i v).getD j d = l.getD j d := by
  rw [List.getD_eq_getElem?_getD, List.getElem?_set, if_neg h, ← List.getD_eq_getElem?_getD]

theorem set_getD_eq {α : Type} : ∀ (l : List α) (i : Nat) (v : α), l.getD i v = v → l.set i v = l
  | [], _, _, _ => rfl
  | a :: t, 0, v, h => by simp [List.getD] at h; simp [List.set, h]
  | a :: t, i + 1, v, h => by
    simp only [List.getD_cons_succ] at h
    simp [List.set, set_getD_eq t i v h]

theorem getD_replicate_lt {α : Type} {n i : Nat} (v d : α) (h : i < n) :
    (List.replicate n v).getD i d = v := by
  rw [List.getD_eq_getElem?_getD, List.getElem?_replicate, if_pos h]
  rfl

theorem foldl_inv {α β : Type} {Q : β → Prop} (f : β → α → β) (l : List α) (init : β)
    (h0 : Q init) (hstep : ∀ acc x, x ∈ l → Q acc → Q (f acc x)) : Q (l.foldl f init) := by
  induction l generalizing init with
  | nil => exact h0
  | cons a t ih =>
    exact ih (f init a) (hstep init a (by simp) h0)
      (fun acc x hx hq => hstep acc x (by simp [hx]) hq)

theorem foldl_congr_inv {α β : Type} {Q : β → Prop} (f g : β → α → β) (l : List α) (init : β)
    (h0 : Q init) (hstep : ∀ acc x, x ∈ l → Q acc → Q (f acc x))
    (heq : ∀ acc x, x ∈ l → Q acc → f acc x = g acc x) :
    l.foldl f init = l.foldl g init := by
  induction l generalizing init with
  | nil => rfl
  | cons a t ih =>
    have he := heq init a (by simp) h0
    rw [List.foldl_cons, List.foldl_cons, ← he]
    exact ih (f init a) (hstep init a (by simp) h0)
      (fun acc x hx hq => hstep acc x (by simp [hx]) hq)
      (fun acc x hx hq => heq acc x (by simp [hx]) hq)

theorem count_false_set_true : ∀ (l : List Bool) (m : Nat), m < l.length →
    l.getD m false = false → (l.set m true).count false + 1 = l.count false
  | [], m, h, _ => by simp at h
  | b :: t, 0, _, hg => by
    simp only [List.getD_cons_zero] at hg
    simp [hg, List.count_cons]
  | b :: t, m + 1, h, hg => by
    simp only [List.getD_cons_succ] at hg
    have := count_false_set_true t m (by simpa using h) hg
    simp only [List.set, List.count_cons]
    omega

theorem mem_of_getLast?_eq {α : Type} : ∀ {l : List α} {a : α}, l.getLast? = some a → a ∈ l := by
  intro l a h
  have : a ∈ l.getLast? := by simp [h]
  exact List.mem_of_mem_getLast? this

theorem takeWhile_length_of_marker : ∀ (l : List Char) (ix : Nat),
    (∀ j, j < l.length → ((l.getD j nullCh ≠ nullCh) ↔ j < ix)) → ix ≤ l.length →
    (l.takeWhile (fun c => c ≠ nullCh)).length = ix
  | [], ix, _, hle => by
    simp only [List.length_nil, Nat.le_zero] at hle
    simp [hle]
  | a :: t, ix, h, hle => by
    cases ix with
    | zero =>
      have h0 := h 0 (by simp)
      simp only [List.getD_cons_zero] at h0
      have hnull : a = nullCh := by
        by_contra hne
        exact absurd (h0.mp hne) (by omega)
      rw [List.takeWhile_cons, if_neg (by simp [hnull])]
      rfl
    | succ k =>
      have h0 := h 0 (by simp)
      simp only [List.getD_cons_zero] at h0
      have ha : a ≠ nullCh := h0.mpr (by omega)
      have ht : (t.takeWhile (fun c => c ≠ nullCh)).length = k :=
        takeWhile_length_of_marker t k
          (fun j hj => by
            have := h (j + 1) (by simpa using Nat.succ_lt_succ hj)
            simpa [Nat.succ_lt_succ_iff] using this)
          (by simpa using hle)
      rw [List.takeWhile_cons, if_pos (by simp [ha]), List.length_cons, ht]

theorem nodup_lt_length_le (l : List Nat) (B : Nat) (hnd : l.Nodup)
    (hlt : ∀ x ∈ l, x < B) : l.length ≤ B := by
  classical
  have hsub : l.toFinset ⊆ Finset.range B := by
    intro x hx
    simp only [List.mem_toFinset] at hx
    simpa using hlt x hx
  have := Finset.card_le_card hsub
  rwa [List.toFinset_card_of_nodup hnd, Finset.card_range] at this

theorem getBoardIndex_bounds {n : Nat} {r c : Int} (hr0 : 0 ≤ r) (hr : r < (n : Int))
    (hc0 : 0 ≤ c) (hc : c < (n : Int)) :
    0 ≤ getBoardIndex n r c ∧ getBoardIndex n r c < (n : Int) * n := by
  unfold getBoardIndex
  constructor
  · positivity
  · have h1 : (n : Int) * r + c < (n : Int) * r + n := by omega
    have h2 : (n : Int) * r + (n : Int) = (n : Int) * (r + 1) := by ring
    have h3 : (n : Int) * (r + 1) ≤ (n : Int) * n :=
      mul_le_mul_of_nonneg_left (by omega) (by positivity)
    omega

theorem toIdx_lt {n : Nat} {p : Int × Int} (h : cellOn n p) : toIdx n p < n * n := by
  obtain ⟨h1, h2, h3, h4⟩ := h
  obtain ⟨hge, hlt⟩ := getBoardIndex_bounds h1 h2 h3 h4
  unfold toIdx
  omega

theorem toIdx_inj {n : Nat} {p q : Int × Int} (hp : cellOn n p) (hq : cellOn n q)
    (h : toIdx n p = toIdx n q) : p = q := by
  obtain ⟨hp1, hp2, hp3, hp4⟩ := hp
  obtain ⟨hq1, hq2, hq3, hq4⟩ := hq
  unfold toIdx getBoardIndex at h
  have hpn : 0 ≤ (n : Int) * p.1 + p.2 := by positivity
  have hqn : 0 ≤ (n : Int) * q.1 + q.2 := by positivity
  have heq : (n : Int) * p.1 + p.2 = (n : Int) * q.1 + q.2 := by omega
  have hrows : p.1 = q.1 := by
    by_contra hne
    rcases lt_or_gt_of_ne hne with hlt | hgt
    · have : (n : Int) * (p.1 + 1) ≤ (n : Int) * q.1 :=
        mul_le_mul_of_nonneg_left (by omega) (by positivity)
      nlinarith
    · have : (n : Int) * (q.1 + 1) ≤ (n : Int) * p.1 :=
        mul_le_mul_of_nonneg_left (by omega) (by positivity)
      nlinarith
  have hcols : p.2 = q.2 := by
    rw [hrows] at heq
    omega
  exact Prod.ext hrows hcols

theorem toLower_of_lower {c : Char} (h : isLowerAZ c) : c.toLower = c := by
  obtain ⟨h1, _⟩ := h
  unfold Char.toLower
  rw [if_neg]
  omega

theorem lower_ne_null {c : Char} (h : isLowerAZ c) : c ≠ nullCh := by
  obtain ⟨h1, _⟩ := h
  intro he
  rw [he] at h1
  have hz : nullCh.toNat = 0 := by decide
  omega

theorem getCharIndex_lt {c : Char} (h : isLowerAZ c) : getCharIndex c < 26 := by
  obtain ⟨h1, h2⟩ := h
  unfold getCharIndex
  rw [toLower_of_lower ⟨h1, h2⟩]
  have ha : 'a'.toNat = 97 := by decide
  omega

theorem getCharIndex_inj {b c : Char} (hb : isLowerAZ b) (hc : isLowerAZ c)
    (h : getCharIndex b = getCharIndex c) : b = c := by
  unfold getCharIndex at h
  rw [toLower_of_lower hb, toLower_of_lower hc] at h
  obtain ⟨hb1, _⟩ := hb
  obtain ⟨hc1, _⟩ := hc
  have ha : 'a'.toNat = 97 := by decide
  have htn : b.toNat = c.toNat := by omega
  exact Char.ext (UInt32.ext htn)

-- Field lemmas for the two marking operations.

@[simp] theorem markUsed_board (s : BoggleCB) (r c : Int) (i : Nat) :
    (markUsed s r c i).board = s.board := rfl

@[simp] theorem markUsed_boardSize (s : BoggleCB) (r c : Int) (i : Nat) :
    (markUsed s r c i).boardSize = s.boardSize := rfl

@[simp] theorem markUsed_maxBoardSize (s : BoggleCB) (r c : Int) (i : Nat) :
    (markUsed s r c i).maxBoardSize = s.maxBoardSize := rfl

@[simp] theorem markUsed_used (s : BoggleCB) (r c : Int) (i : Nat) :
    (markUsed s r c i).used = s.used.set (getBoardIndex s.boardSize r c).toNat true := rfl

@[simp] theorem markUsed_search (s : BoggleCB) (r c : Int) (i : Nat) :
    (markUsed s r c i).search =
      s.search.set i (s.board.getD (getBoardIndex s.boardSize r c).toNat nullCh) := rfl

@[simp] theorem markUnused_board (s : BoggleCB) (r c : Int) (i : Nat) :
    (markUnused s r c i).board = s.board := rfl

@[simp] theorem markUnused_boardSize (s : BoggleCB) (r c : Int) (i : Nat) :
    (markUnused s r c i).boardSize = s.boardSize := rfl

@[simp] theorem markUnused_maxBoardSize (s : BoggleCB) (r c : Int) (i : Nat) :
    (markUnused s r c i).maxBoardSize = s.maxBoardSize := rfl

@[simp] theorem markUnused_used (s : BoggleCB) (r c : Int) (i : Nat) :
    (markUnused s r c i).used = s.used.set (getBoardIndex s.boardSize r c).toNat false := rfl

@[simp] theorem markUnused_search (s : BoggleCB) (r c : Int) (i : Nat) :
    (markUnused s r c i).search = s.search.set i nullCh := rfl

theorem Pres.refl (s : BoggleCB) : Pres s s := ⟨rfl, rfl, rfl, rfl, rfl⟩

theorem isValid_unused {s : BoggleCB} {bi : Int} {node : Trie}
    (h : isValid s bi node = true) : s.used.getD bi.toNat false = false := by
  unfold isValid at h
  simp only [Bool.and_eq_true, Bool.not_eq_true'] at h
  exact h.1.2

theorem isValid_child_isSome {s : BoggleCB} {bi : Int} {node : Trie}
    (h : isValid s bi node = true) :
    (node.childAt (getCharIndex (s.board.getD bi.toNat nullCh))).isSome = true := by
  unfold isValid at h
  simp only [Bool.and_eq_true, Bool.not_eq_true'] at h
  exact h.2

theorem innerStep_pres
    (F : BoggleCB → Int → Int → Trie → Nat → List (Int × Int) → BoggleCB × List Found)
    (hF : ∀ s' r c n i p, Pres s' (F s' r c n i p).1)
    {s : BoggleCB} (col newRow : Int) (node : Trie) (ix : Nat) (path : List (Int × Int))
    (acc : BoggleCB × List Found) (d : Int) (h : Pres s acc.1) :
    Pres s (innerStep F col newRow node ix path acc d).1 := by
  unfold innerStep
  dsimp only
  split
  case isTrue hc =>
    simp only [Bool.and_eq_true] at hc
    have hval : isValid acc.1 (getBoardIndex acc.1.boardSize newRow (col + d)) node = true := hc.2
    have hunused := isValid_unused hval
    split
    case h_1 childNode hch =>
      obtain ⟨hu, hb, hbs, hmbs, hsl⟩ := h
      have hF1 := hF (markUsed acc.1 newRow (col + d) ix) newRow (col + d) childNode (ix + 1)
        (path ++ [(newRow, col + d)])
      obtain ⟨hu1, hb1, hbs1, hmbs1, hsl1⟩ := hF1
      refine ⟨?_, ?_, ?_, ?_, ?_⟩
      · simp only [markUnused_used, hbs1, markUsed_boardSize, hu1, markUsed_used,
          List.set_set]
        rw [set_getD_eq _ _ _ hunused, hu]
      · simp only [markUnused_board, hb1, markUsed_board, hb]
      · simp only [markUnused_boardSize, hbs1, markUsed_boardSize, hbs]
      · simp only [markUnused_maxBoardSize, hmbs1, markUsed_maxBoardSize, hmbs]
      · simp only [markUnused_search, List.length_set, hsl1, markUsed_search,
          List.length_set, hsl]
    case h_2 => exact h
  case isFalse => exact h

theorem outerStep_pres
    (F : BoggleCB → Int → Int → Trie → Nat → List (Int × Int) → BoggleCB × List Found)
    (hF : ∀ s' r c n i p, Pres s' (F s' r c n i p).1)
    {s : BoggleCB} (row col : Int) (node : Trie) (ix : Nat) (path : List (Int × Int))
    (acc : BoggleCB × List Found) (d : Int) (h : Pres s acc.1) :
    Pres s (outerStep F row col node ix path acc d).1 := by
  unfold outerStep
  dsimp only
  split
  case isTrue =>
    exact foldl_inv (Q := fun a => Pres s a.1) _ diffs acc h
      (fun a x _ hq => innerStep_pres F hF col (row + d) node ix path a x hq)
  case isFalse => exact h

theorem findSolution_pres : ∀ (fuel : Nat) (s : BoggleCB) (row col : Int) (node : Trie)
    (ix : Nat) (path : List (Int × Int)),
    Pres s (findSolution fuel s row col node ix path).1 := by
  intro fuel
  induction fuel with
  | zero => intro s row col node ix path; exact Pres.refl s
  | succ k ih =>
    intro s row col node ix path
    have hunfold : findSolution (k + 1) s row col node ix path =
        diffs.foldl (outerStep (findSolution k) row col node ix path)
          (s, if node.flagsOf &&& FLAGS_ISWORD ≠ 0 then [⟨cString s.search, row, col, path⟩]
              else []) := rfl
    rw [hunfold]
    refine foldl_inv (Q := fun (a : BoggleCB × List Found) => Pres s a.1)
      (outerStep (findSolution k) row col node ix path) diffs
      (s, if node.flagsOf &&& FLAGS_ISWORD ≠ 0 then [⟨cString s.search, row, col, path⟩]
          else [])
      (Pres.refl s) ?_
    exact fun a x _ hq =>
      outerStep_pres (findSolution k) (fun s' r c n i p => ih s' r c n i p)
        row col node ix path a x hq

theorem path_length_le {n : Nat} {path : List (Int × Int)} (hon : ∀ p ∈ path, cellOn n p)
    (hnd : (path.map (toIdx n)).Nodup) : path.length ≤ n * n := by
  have h := nodup_lt_length_le (path.map (toIdx n)) (n * n) hnd ?_
  · simpa using h
  · intro x hx
    obtain ⟨p, hp, rfl⟩ := List.mem_map.mp hx
    exact toIdx_lt (hon p hp)

theorem emit_foundOK {s : BoggleCB} {path : List (Int × Int)} {ix : Nat} {row col : Int}
    (hs : StateInv s path ix) (hp : PathOK s.boardSize path row col) :
    FoundOK s.boardSize s.board ⟨cString s.search, row, col, path⟩ := by
  have hlen : path.length ≤ s.boardSize * s.boardSize := path_length_le hp.hon hp.hnd
  refine ⟨hp.hne, hp.hlast, hp.hon, hp.hchain, hp.hnd, ?_, ?_, hlen⟩
  · show (cString s.search).length = path.length
    unfold cString
    rw [← hs.hix]
    have hix80 : ix ≤ s.search.length := by
      rw [hs.hslen, hs.hix]
      exact le_trans hlen hs.hcap
    exact takeWhile_length_of_marker s.search ix
      (fun j hj => hs.hsearch j (by rw [← hs.hslen]; exact hj)) hix80
  · intro ch hch
    have hmem : ch ∈ s.search := List.takeWhile_subset _ hch
    have hne : ch ≠ nullCh := by
      have := List.mem_takeWhile_imp hch
      simpa using this
    exact hs.hchars ch hmem hne

theorem diffs_abs : ∀ d ∈ diffs, d.natAbs ≤ 1 := by decide

theorem innerStep_spec
    (F : BoggleCB → Int → Int → Trie → Nat → List (Int × Int) → BoggleCB × List Found)
    (hF : ∀ s' r c n' i' p', StateInv s' p' i' → PathOK s'.boardSize p' r c →
      AccOK s' (F s' r c n' i' p'))
    {s : BoggleCB} {path : List (Int × Int)} {ix : Nat} {row col : Int}
    (hs : StateInv s path ix) (hp : PathOK s.boardSize path row col)
    (newRow : Int) (node : Trie)
    (hr0 : 0 ≤ newRow) (hrN : newRow < (s.boardSize : Int))
    (hrd : (newRow - row).natAbs ≤ 1)
    (acc : BoggleCB × List Found) (d : Int) (hd : d.natAbs ≤ 1)
    (hacc : AccOK s acc) :
    AccOK s (innerStep F col newRow node ix path acc d) := by
  obtain ⟨ha1, ha2⟩ := hacc
  unfold innerStep
  dsimp only
  rw [ha1]
  split
  case isFalse => exact ⟨ha1, ha2⟩
  case isTrue hc =>
    simp only [Bool.and_eq_true, decide_eq_true_eq] at hc
    obtain ⟨⟨hc0, hcN⟩, hval⟩ := hc
    split
    case h_2 hch =>
      have hsome := isValid_child_isSome hval
      rw [hch] at hsome
      simp at hsome
    case h_1 childNode hch =>
      have hcell : cellOn s.boardSize (newRow, col + d) := ⟨hr0, hrN, hc0, hcN⟩
      have hmlt : (getBoardIndex s.boardSize newRow (col + d)).toNat <
          s.boardSize * s.boardSize := toIdx_lt hcell
      have hunused := isValid_unused hval
      have hnotin : (getBoardIndex s.boardSize newRow (col + d)).toNat ∉
          path.map (toIdx s.boardSize) := by
        intro hmem
        have h := (hs.hused _ hmlt).mpr hmem
        rw [hunused] at h
        exact Bool.false_ne_true h
      have hmapext : ((path ++ [(newRow, col + d)]).map (toIdx s.boardSize)) =
          path.map (toIdx s.boardSize) ++ [(getBoardIndex s.boardSize newRow (col + d)).toNat] := by
        simp [toIdx]
      have hnd' : ((path ++ [(newRow, col + d)]).map (toIdx s.boardSize)).Nodup := by
        rw [hmapext, List.nodup_append]
        refine ⟨hp.hnd, List.nodup_singleton _, ?_⟩
        intro a ha hb
        simp only [List.mem_singleton] at hb
        rw [hb] at ha
        exact hnotin ha
      have hon' : ∀ p ∈ path ++ [(newRow, col + d)], cellOn s.boardSize p := by
        intro p hpm
        rcases List.mem_append.mp hpm with h | h
        · exact hp.hon p h
        · simp only [List.mem_singleton] at h
          rw [h]
          exact hcell
      have hlen' : (path ++ [(newRow, col + d)]).length ≤ s.boardSize * s.boardSize :=
        path_length_le hon' hnd'
      have hixlt : ix < s.boardSize * s.boardSize := by
        have hx := hs.hix
        simp only [List.length_append, List.length_singleton] at hlen'
        omega
      have hix80 : ix < MAX_WORD_LENGTH := lt_of_lt_of_le hixlt hs.hcap
      have hletter_mem : s.board.getD (getBoardIndex s.boardSize newRow (col + d)).toNat nullCh
          ∈ s.board := by
        rw [List.getD_eq_getElem _ _ (by rw [hs.hblen]; exact hmlt)]
        exact List.getElem_mem _
      have hletter_low := hs.hlower _ hletter_mem
      have hletter_ne := lower_ne_null hletter_low
      have hsearch_ix_null : s.search.getD ix nullCh = nullCh := by
        by_contra hne
        exact absurd ((hs.hsearch ix hix80).mp hne) (lt_irrefl ix)
      have hs1 : StateInv (markUsed s newRow (col + d) ix) (path ++ [(newRow, col + d)])
          (ix + 1) := by
        refine ⟨?_, ?_, ?_, ?_, ?_, ?_, ?_, ?_, ?_, ?_⟩
        · simp only [markUsed_maxBoardSize, markUsed_boardSize]
          exact hs.hmbs
        · simp only [markUsed_board, markUsed_boardSize]
          exact hs.hblen
        · simp only [markUsed_used, markUsed_boardSize, List.length_set]
          exact hs.hulen
        · simp only [markUsed_search, List.length_set]
          exact hs.hslen
        · simp only [markUsed_boardSize]
          exact hs.hcap
        · simp only [markUsed_board]
          exact hs.hlower
        · intro m' hm'
          simp only [markUsed_used, markUsed_boardSize] at *
          rw [hmapext]
          by_cases he : m' = (getBoardIndex s.boardSize newRow (col + d)).toNat
          · rw [he, getD_set_self _ _ _ _ (by rw [hs.hulen]; exact hmlt)]
            simp
          · rw [getD_set_ne _ _ _ (fun hmm => he hmm.symm)]
            rw [hs.hused m' hm']
            simp [List.mem_append, he]
        · simp only [List.length_append, List.length_singleton, hs.hix]
        · intro j hj
          simp only [markUsed_search, markUsed_boardSize]
          by_cases he : j = ix
          · rw [he, getD_set_self _ _ _ _ (by rw [hs.hslen]; exact hix80)]
            exact iff_of_true hletter_ne (by omega)
          · rw [getD_set_ne _ _ _ (fun hmm => he hmm.symm)]
            rw [hs.hsearch j hj]
            constructor <;> intro <;> omega
        · intro ch hch2 hne2
          simp only [markUsed_search] at hch2
          simp only [markUsed_board]
          rcases List.mem_or_eq_of_mem_set hch2 with h | h
          · exact hs.hchars ch h hne2
          · rw [h]
            exact hletter_mem
      have hlastmem : (row, col) ∈ path := mem_of_getLast?_eq hp.hlast
      have hne_cell : (row, col) ≠ (newRow, col + d) := by
        intro he
        have hmm : toIdx s.boardSize (row, col) ∈ path.map (toIdx s.boardSize) :=
          List.mem_map_of_mem _ hlastmem
        rw [he] at hmm
        exact hnotin (by simpa [toIdx] using hmm)
      have hchain' : List.Chain' chebAdj (path ++ [(newRow, col + d)]) := by
        rw [List.chain'_append]
        refine ⟨hp.hchain, List.chain'_singleton _, ?_⟩
        intro x hx y hy
        rw [hp.hlast] at hx
        simp only [Option.mem_def, Option.some_inj] at hx
        simp only [List.head?_cons, Option.mem_def, Option.some_inj] at hy
        rw [← hx, ← hy]
        refine ⟨hrd, ?_, hne_cell⟩
        rw [show col + d - col = d from by ring]
        exact hd
      have hp1 : PathOK s.boardSize (path ++ [(newRow, col + d)]) newRow (col + d) :=
        ⟨by simp, List.getLast?_concat _, hon', hchain', hnd'⟩
      have hrec := hF (markUsed s newRow (col + d) ix) newRow (col + d) childNode (ix + 1)
        (path ++ [(newRow, col + d)]) hs1 hp1
      obtain ⟨hr1, hr2⟩ := hrec
      constructor
      · show markUnused (F (markUsed s newRow (col + d) ix) newRow (col + d) childNode
          (ix + 1) (path ++ [(newRow, col + d)])).1 newRow (col + d) ix = s
        rw [hr1]
        show markUnused (markUsed s newRow (col + d) ix) newRow (col + d) ix = s
        unfold markUnused
        dsimp only [markUsed_boardSize, markUsed_used, markUsed_search, markUsed_board]
        rw [List.set_set, List.set_set]
        rw [set_getD_eq _ _ _ hunused, set_getD_eq _ _ _ hsearch_ix_null]
        rfl
      · intro f hf
        rcases List.mem_append.mp hf with h | h
        · exact ha2 f h
        · exact hr2 f h

theorem outerStep_spec
    (F : BoggleCB → Int → Int → Trie → Nat → List (Int × Int) → BoggleCB × List Found)
    (hF : ∀ s' r c n' i' p', StateInv s' p' i' → PathOK s'.boardSize p' r c →
      AccOK s' (F s' r c n' i' p'))
    {s : BoggleCB} {path : List (Int × Int)} {ix : Nat} {row col : Int}
    (hs : StateInv s path ix) (hp : PathOK s.boardSize path row col)
    (node : Trie) (acc : BoggleCB × List Found) (rd : Int) (hrd : rd.natAbs ≤ 1)
    (hacc : AccOK s acc) :
    AccOK s (outerStep F row col node ix path acc rd) := by
  have ha1 := hacc.1
  unfold outerStep
  dsimp only
  rw [ha1]
  split
  case isTrue hcond =>
    simp only [Bool.and_eq_true, decide_eq_true_eq] at hcond
    refine foldl_inv (Q := AccOK s) _ diffs acc hacc ?_
    intro a x hx ha
    refine innerStep_spec F hF hs hp (row + rd) node hcond.1 hcond.2 ?_ a x (diffs_abs x hx) ha
    rw [show row + rd - row = rd from by ring]
    exact hrd
  case isFalse => exact hacc

theorem findSolution_spec : ∀ (fuel : Nat) (s : BoggleCB) (row col : Int) (node : Trie)
    (ix : Nat) (path : List (Int × Int)),
    StateInv s path ix → PathOK s.boardSize path row col →
    AccOK s (findSolution fuel s row col node ix path) := by
  intro fuel
  induction fuel with
  | zero =>
    intro s row col node ix path _ _
    exact ⟨rfl, by intro f hf; simp [findSolution] at hf⟩
  | succ k ih =>
    intro s row col node ix path hs hp
    have hunfold : findSolution (k + 1) s row col node ix path =
        diffs.foldl (outerStep (findSolution k) row col node ix path)
          (s, if node.flagsOf &&& FLAGS_ISWORD ≠ 0 then [⟨cString s.search, row, col, path⟩]
              else []) := rfl
    rw [hunfold]
    refine foldl_inv (Q := AccOK s)
      (outerStep (findSolution k) row col node ix path) diffs
      (s, if node.flagsOf &&& FLAGS_ISWORD ≠ 0 then [⟨cString s.search, row, col, path⟩]
          else [])
      ⟨rfl, ?_⟩ ?_
    · intro f hf
      by_cases hw : node.flagsOf &&& FLAGS_ISWORD ≠ 0
      · rw [if_pos hw] at hf
        simp only [List.mem_singleton] at hf
        rw [hf]
        exact emit_foundOK hs hp
      · rw [if_neg hw] at hf
        simp at hf
    · intro a x hx ha
      exact outerStep_spec (findSolution k)
        (fun s' r c n' i' p' hs' hp' => ih s' r c n' i' p' hs' hp')
        hs hp node a x (diffs_abs x hx) ha

theorem boardCells_mem {n : Nat} {p : Int × Int} (h : p ∈ boardCells n) : cellOn n p := by
  unfold boardCells at h
  rw [List.mem_flatten] at h
  obtain ⟨l, hl, hpl⟩ := h
  rw [List.mem_map] at hl
  obtain ⟨i, hi, rfl⟩ := hl
  rw [List.mem_map] at hpl
  obtain ⟨j, hj, rfl⟩ := hpl
  rw [List.mem_range] at hi hj
  refine ⟨Int.ofNat_nonneg i, ?_, Int.ofNat_nonneg j, ?_⟩
  · show (i : Int) < (n : Int)
    exact_mod_cast hi
  · show (j : Int) < (n : Int)
    exact_mod_cast hj

theorem playCells_spec : ∀ (cells : List (Int × Int)) (dict : Trie) (s : BoggleCB),
    (∀ p ∈ cells, cellOn s.boardSize p) →
    s.board.length = s.boardSize * s.boardSize →
    s.used = List.replicate (s.boardSize * s.boardSize) false →
    s.search = List.replicate MAX_WORD_LENGTH nullCh →
    (∀ ch ∈ s.board, isLowerAZ ch) →
    s.maxBoardSize = ((s.boardSize * s.boardSize : Nat) : Int) →
    s.boardSize * s.boardSize ≤ MAX_WORD_LENGTH →
    ∀ r, playCells dict cells s = some r →
    r.1 = s ∧ ∀ f ∈ r.2, FoundOK s.boardSize s.board f := by
  intro cells
  induction cells with
  | nil =>
    intro dict s _ _ _ _ _ _ _ r hr
    simp only [playCells, Option.some_inj] at hr
    rw [← hr]
    exact ⟨rfl, by intro f hf; simp at hf⟩
  | cons hd tl ih =>
    obtain ⟨i, j⟩ := hd
    intro dict s hcells hblen hused hsearch hlower hmbs hcap r hr
    have hcell : cellOn s.boardSize (i, j) := hcells _ (by simp)
    have hmlt0 : (getBoardIndex s.boardSize i j).toNat < s.boardSize * s.boardSize :=
      toIdx_lt hcell
    have hused0 : s.used.getD (getBoardIndex s.boardSize i j).toNat false = false := by
      rw [hused]
      exact getD_replicate_lt _ _ hmlt0
    have hsearch0 : s.search.getD 0 nullCh = nullCh := by
      rw [hsearch]
      exact getD_replicate_lt _ _ (by norm_num [MAX_WORD_LENGTH])
    have hrestore : markUnused (markUsed s i j 0) i j 0 = s := by
      unfold markUnused
      dsimp only [markUsed_boardSize, markUsed_used, markUsed_search, markUsed_board]
      rw [List.set_set, List.set_set, set_getD_eq _ _ _ hused0, set_getD_eq _ _ _ hsearch0]
      rfl
    have hletter0_mem : s.board.getD (getBoardIndex s.boardSize i j).toNat nullCh ∈ s.board := by
      rw [List.getD_eq_getElem _ _ (by rw [hblen]; exact hmlt0)]
      exact List.getElem_mem _
    have hletter0_ne := lower_ne_null (hlower _ hletter0_mem)
    have hsi : StateInv (markUsed s i j 0) [(i, j)] 1 := by
      refine ⟨?_, ?_, ?_, ?_, ?_, ?_, ?_, ?_, ?_, ?_⟩
      · simp only [markUsed_maxBoardSize, markUsed_boardSize]
        exact hmbs
      · simp only [markUsed_board, markUsed_boardSize]
        exact hblen
      · simp only [markUsed_used, markUsed_boardSize, List.length_set]
        rw [hused, List.length_replicate]
      · simp only [markUsed_search, List.length_set]
        rw [hsearch, List.length_replicate]
      · simp only [markUsed_boardSize]
        exact hcap
      · simp only [markUsed_board]
        exact hlower
      · intro m hm
        simp only [markUsed_used, markUsed_boardSize] at *
        rw [hused]
        by_cases he : m = (getBoardIndex s.boardSize i j).toNat
        · rw [he, getD_set_self _ _ _ _ (by rw [List.length_replicate]; exact hmlt0)]
          simp [toIdx]
        · rw [getD_set_ne _ _ _ (fun hmm => he hmm.symm), getD_replicate_lt _ _ hm]
          simp [toIdx, he]
      · rfl
      · intro j' hj'
        simp only [markUsed_search]
        by_cases he : j' = 0
        · rw [he, getD_set_self _ _ _ _
            (by rw [hsearch, List.length_replicate]; norm_num [MAX_WORD_LENGTH])]
          exact iff_of_true hletter0_ne (by omega)
        · rw [getD_set_ne _ _ _ (fun hmm => he hmm.symm), hsearch, getD_replicate_lt _ _ hj']
          exact iff_of_false (by simp) (by omega)
      · intro ch hch hne
        simp only [markUsed_search] at hch
        simp only [markUsed_board]
        rcases List.mem_or_eq_of_mem_set hch with h | h
        · rw [hsearch] at h
          exact absurd (List.eq_of_mem_replicate h) hne
        · rw [h]
          exact hletter0_mem
    have hpo : PathOK s.boardSize [(i, j)] i j := by
      refine ⟨by simp, rfl, ?_, List.chain'_singleton _, by simp⟩
      intro p hp
      simp only [List.mem_singleton] at hp
      rw [hp]
      exact hcell
    have hspec := findSolution_spec (s.boardSize * s.boardSize + 1) (markUsed s i j 0)
      i j
    simp only [playCells] at hr
    dsimp only [markUsed_board, markUsed_boardSize] at hr
    split at hr
    case h_1 => exact absurd hr (by simp)
    case h_2 node hch =>
      have hacc := findSolution_spec (s.boardSize * s.boardSize + 1) (markUsed s i j 0)
        i j node 1 [(i, j)] hsi hpo
      rw [hacc.1, hrestore] at hr
      split at hr
      case h_1 => exact absurd hr (by simp)
      case h_2 s3 out2 heq =>
        simp only [Option.some_inj] at hr
        rw [← hr]
        have hih := ih dict s (fun p hp => hcells p (by simp [hp])) hblen hused hsearch
          hlower hmbs hcap (s3, out2) heq
        refine ⟨hih.1, ?_⟩
        intro f hf
        rcases List.mem_append.mp hf with h | h
        · exact hacc.2 f h
        · exact hih.2 f h

theorem playBoggle_spec (s0 : BoggleCB) (dict : Trie) (hwf : WF0 s0)
    (r : BoggleCB × List Found) (hr : playBoggle s0 dict = some r) :
    r.1.used = List.replicate (s0.boardSize * s0.boardSize) false ∧
    r.1.search = List.replicate MAX_WORD_LENGTH nullCh ∧
    ∀ f ∈ r.2, FoundOK s0.boardSize s0.board f := by
  obtain ⟨hblen, hused, hlower, hmbs⟩ := hwf
  unfold playBoggle at hr
  split at hr
  case isFalse => exact absurd hr (by simp)
  case isTrue hcap =>
    have hps := playCells_spec (boardCells s0.boardSize) dict
      { s0 with search := List.replicate MAX_WORD_LENGTH nullCh }
      (fun p hp => boardCells_mem hp) hblen hused rfl hlower hmbs hcap r hr
    refine ⟨?_, ?_, ?_⟩
    · rw [hps.1]
      exact hused
    · rw [hps.1]
    · exact hps.2

-- Fuel theorems: the C recursion terminates because every recursive call
-- marks one more cell used, so at most boardSize*boardSize nested calls
-- can happen; in the embedding, any fuel beyond the number of unused
-- cells gives the same result.

theorem innerStep_congr {K : Nat}
    (F G : BoggleCB → Int → Int → Trie → Nat → List (Int × Int) → BoggleCB × List Found)
    (hFG : ∀ s' r c n' i' p', s'.used.length = s'.boardSize * s'.boardSize →
      s'.used.count false + 1 ≤ K → F s' r c n' i' p' = G s' r c n' i' p')
    {s : BoggleCB} (hul : s.used.length = s.boardSize * s.boardSize)
    (hK : s.used.count false ≤ K)
    (col newRow : Int) (hr0 : 0 ≤ newRow) (hrN : newRow < (s.boardSize : Int))
    (node : Trie) (ix : Nat) (path : List (Int × Int))
    (acc : BoggleCB × List Found) (d : Int) (hacc : Pres s acc.1) :
    innerStep F col newRow node ix path acc d = innerStep G col newRow node ix path acc d := by
  obtain ⟨hu, hb, hbs, hmbs, hsl⟩ := hacc
  unfold innerStep
  dsimp only
  split
  case isFalse => rfl
  case isTrue hc =>
    simp only [Bool.and_eq_true, decide_eq_true_eq] at hc
    obtain ⟨⟨hc0, hcN⟩, hval⟩ := hc
    split
    case h_2 => rfl
    case h_1 childNode hch =>
      have hcell : cellOn acc.1.boardSize (newRow, col + d) :=
        ⟨hr0, by rw [hbs]; exact hrN, hc0, hcN⟩
      have hmlt : (getBoardIndex acc.1.boardSize newRow (col + d)).toNat <
          acc.1.boardSize * acc.1.boardSize := toIdx_lt hcell
      have hunused := isValid_unused hval
      have hulacc : acc.1.used.length = acc.1.boardSize * acc.1.boardSize := by
        rw [hu, hbs]; exact hul
      have hcnt := count_false_set_true acc.1.used
        (getBoardIndex acc.1.boardSize newRow (col + d)).toNat
        (by rw [hulacc]; exact hmlt) hunused
      have heq := hFG (markUsed acc.1 newRow (col + d) ix) newRow (col + d) childNode
        (ix + 1) (path ++ [(newRow, col + d)])
        (by simp only [markUsed_used, markUsed_boardSize, List.length_set]; exact hulacc)
        (by
          simp only [markUsed_used, markUsed_boardSize]
          rw [hcnt, hu]
          exact hK)
      rw [heq]

theorem outerStep_congr {K : Nat}
    (F G : BoggleCB → Int → Int → Trie → Nat → List (Int × Int) → BoggleCB × List Found)
    (hFpres : ∀ s' r c n' i' p', Pres s' (F s' r c n' i' p').1)
    (hFG : ∀ s' r c n' i' p', s'.used.length = s'.boardSize * s'.boardSize →
      s'.used.count false + 1 ≤ K → F s' r c n' i' p' = G s' r c n' i' p')
    {s : BoggleCB} (hul : s.used.length = s.boardSize * s.boardSize)
    (hK : s.used.count false ≤ K)
    (row col : Int) (node : Trie) (ix : Nat) (path : List (Int × Int))
    (acc : BoggleCB × List Found) (rd : Int) (hacc : Pres s acc.1) :
    outerStep F row col node ix path acc rd = outerStep G row col node ix path acc rd := by
  have hbs := hacc.2.2.1
  unfold outerStep
  dsimp only
  rw [hbs]
  split
  case isFalse => rfl
  case isTrue hcond =>
    simp only [Bool.and_eq_true, decide_eq_true_eq] at hcond
    refine foldl_congr_inv (Q := fun a => Pres s a.1) _ _ diffs acc hacc ?_ ?_
    · intro a x _ hq
      exact innerStep_pres F hFpres col (row + rd) node ix path a x hq
    · intro a x _ hq
      exact innerStep_congr F G hFG hul hK col (row + rd) hcond.1 hcond.2 node ix path a x hq

theorem findSolution_fuel_succ : ∀ (fuel : Nat) (s : BoggleCB) (row col : Int) (node : Trie)
    (ix : Nat) (path : List (Int × Int)),
    s.used.length = s.boardSize * s.boardSize →
    s.used.count false + 1 ≤ fuel →
    findSolution (fuel + 1) s row col node ix path = findSolution fuel s row col node ix path := by
  intro fuel
  induction fuel with
  | zero =>
    intro s row col node ix path _ hcnt
    exact absurd hcnt (by omega)
  | succ k ih =>
    intro s row col node ix path hul hcnt
    have hunfold1 : findSolution (k + 1 + 1) s row col node ix path =
        diffs.foldl (outerStep (findSolution (k + 1)) row col node ix path)
          (s, if node.flagsOf &&& FLAGS_ISWORD ≠ 0 then [⟨cString s.search, row, col, path⟩]
              else []) := rfl
    have hunfold2 : findSolution (k + 1) s row col node ix path =
        diffs.foldl (outerStep (findSolution k) row col node ix path)
          (s, if node.flagsOf &&& FLAGS_ISWORD ≠ 0 then [⟨cString s.search, row, col, path⟩]
              else []) := rfl
    rw [hunfold1, hunfold2]
    refine foldl_congr_inv (Q := fun (a : BoggleCB × List Found) => Pres s a.1)
      (outerStep (findSolution (k + 1)) row col node ix path)
      (outerStep (findSolution k) row col node ix path) diffs
      (s, if node.flagsOf &&& FLAGS_ISWORD ≠ 0 then [⟨cString s.search, row, col, path⟩]
          else [])
      (Pres.refl s) ?_ ?_
    · intro a x _ hq
      exact outerStep_pres (findSolution (k + 1))
        (fun s' r c n' i' p' => findSolution_pres (k + 1) s' r c n' i' p')
        row col node ix path a x hq
    · intro a x _ hq
      exact outerStep_congr (findSolution (k + 1)) (findSolution k)
        (fun s' r c n' i' p' => findSolution_pres (k + 1) s' r c n' i' p')
        (fun s' r c n' i' p' hul' hcnt' => ih s' r c n' i' p' hul' hcnt')
        hul (by omega) row col node ix path a x hq

theorem findSolution_fuel_ge (s : BoggleCB) (row col : Int) (node : Trie)
    (ix : Nat) (path : List (Int × Int))
    (hul : s.used.length = s.boardSize * s.boardSize) :
    ∀ f, s.used.count false + 1 ≤ f →
    findSolution f s row col node ix path =
      findSolution (s.used.count false + 1) s row col node ix path := by
  intro f hf
  obtain ⟨d, rfl⟩ := Nat.exists_eq_add_of_le hf
  induction d with
  | zero => rfl
  | succ e ihe =>
    have : s.used.count false + 1 + (e + 1) = (s.used.count false + 1 + e) + 1 := by omega
    rw [this, findSolution_fuel_succ _ s row col node ix path hul (by omega)]
    exact ihe (by omega)

theorem TrieWF.child_length {t : Trie} (h : TrieWF t) :
    (match t with | .mk _ _ cs => cs.length) = ALPHABET_SIZE := by
  cases h with
  | mk hl _ => exact hl

theorem trieAllocNode_wf : TrieWF trieAllocNode := by
  refine TrieWF.mk (by simp [ALPHABET_SIZE]) ?_
  intro t ht
  exact absurd (List.eq_of_mem_replicate ht) (by simp)

theorem trieFree_fst : ∀ (o : Option Trie), (trieFree o).1 = none := by
  intro o
  cases o with
  | none => simp [trieFree]
  | some t => cases t with | mk ch fl cs => simp [trieFree]

theorem trieFree_setCh (t : Trie) (c : Char) :
    (trieFree (some (t.setCh c))).2 = (trieFree (some t)).2 := by
  cases t with | mk ch fl cs => simp [trieFree, Trie.setCh]

theorem trieFree_setWordFlag (t : Trie) :
    (trieFree (some t.setWordFlag)).2 = (trieFree (some t)).2 := by
  cases t with | mk ch fl cs => simp [trieFree, Trie.setWordFlag]

theorem trieFree_alloc : (trieFree (some trieAllocNode)).2 = 1 := by
  have haux : ∀ n : Nat, (trieFreeList (List.replicate n none)).2 = 0 := by
    intro n
    induction n with
    | zero => simp [trieFreeList]
    | succ k ih => simp [List.replicate_succ, trieFreeList, trieFree, ih]
  simp [trieAllocNode, trieFree, haux]

theorem trieFreeList_set : ∀ (cs : List (Option Trie)) (ix : Nat) (x : Option Trie),
    ix < cs.length →
    (trieFreeList (cs.set ix x)).2 + (trieFree (cs.getD ix none)).2 =
      (trieFreeList cs).2 + (trieFree x).2
  | [], ix, x, h => by simp at h
  | o :: rest, 0, x, _ => by
    simp only [List.set_cons_zero, List.getD_cons_zero]
    simp [trieFreeList]
    omega
  | o :: rest, ix + 1, x, h => by
    simp only [List.set_cons_succ, List.getD_cons_succ]
    have hrec := trieFreeList_set rest ix x (by simpa using h)
    simp only [List.getD_eq_getElem?_getD] at hrec
    simp [trieFreeList, List.getD_eq_getElem?_getD]
    omega

theorem getD_some_mem {cs : List (Option Trie)} {ix : Nat} {x : Trie}
    (h : cs.getD ix none = some x) : some x ∈ cs := by
  by_cases hlt : ix < cs.length
  · rw [List.getD_eq_getElem _ _ hlt] at h
    rw [← h]
    exact List.getElem_mem _
  · rw [List.getD_eq_getElem?_getD, List.getElem?_eq_none (by omega)] at h
    simp at h

theorem setCh_wf {t : Trie} (h : TrieWF t) (c : Char) : TrieWF (t.setCh c) := by
  cases t with | mk ch fl cs =>
  cases h with | mk hl hc =>
  exact TrieWF.mk hl hc

theorem setWordFlag_wf {t : Trie} (h : TrieWF t) : TrieWF t.setWordFlag := by
  cases t with | mk ch fl cs =>
  cases h with | mk hl hc =>
  exact TrieWF.mk hl hc

theorem setChild_wf {t x : Trie} (h : TrieWF t) (hx : TrieWF x) (ix : Nat) :
    TrieWF (t.setChild ix (some x)) := by
  cases t with | mk ch fl cs =>
  cases h with | mk hl hc =>
  refine TrieWF.mk (by rw [List.length_set]; exact hl) ?_
  intro u hu
  rcases List.mem_or_eq_of_mem_set hu with h1 | h1
  · exact hc u h1
  · rw [Option.some_inj] at h1
    rw [h1]
    exact hx

theorem childAt_wf {t x : Trie} (h : TrieWF t) {ix : Nat} (hx : t.childAt ix = some x) :
    TrieWF x := by
  cases t with | mk ch fl cs =>
  cases h with | mk hl hc =>
  exact hc x (getD_some_mem hx)

theorem trieAddWordGo_count (hist : List Nat) : ∀ (w : List Char) (t : Trie), TrieWF t →
    (∀ c ∈ w, getCharIndex c < ALPHABET_SIZE) →
    TrieWF (trieAddWordGo hist t w).1 ∧
    (trieFree (some (trieAddWordGo hist t w).1)).2 =
      (trieFree (some t)).2 + (trieAddWordGo hist t w).2.1
  | [], t, hwf, _ => by
    simp only [trieAddWordGo]
    exact ⟨setWordFlag_wf hwf, by rw [trieFree_setWordFlag]; omega⟩
  | c :: rest, t, hwf, hcs => by
    have hrest : ∀ c' ∈ rest, getCharIndex c' < ALPHABET_SIZE :=
      fun c' hc' => hcs c' (by simp [hc'])
    have hcz : getCharIndex c < ALPHABET_SIZE := hcs c (by simp)
    simp only [trieAddWordGo]
    split
    case isTrue => exact ⟨hwf, by simp⟩
    case isFalse hz =>
      dsimp only
      cases hch : t.childAt (getCharIndex c) with
      | none =>
        simp only [hch]
        have hwf1 : TrieWF (trieAllocNode.setCh c) := setCh_wf trieAllocNode_wf c
        have hstep := trieAddWordGo_count hist rest (trieAllocNode.setCh c) hwf1 hrest
        refine ⟨setChild_wf hwf hstep.1 _, ?_⟩
        cases t with | mk ch fl cs =>
        cases hwf with | mk hl hc =>
        have hset := trieFreeList_set cs (getCharIndex c)
          (some (trieAddWordGo hist (trieAllocNode.setCh c) rest).1)
          (by rw [hl]; exact hcz)
        have hchd : cs.getD (getCharIndex c) none = none := hch
        rw [hchd] at hset
        have hcnt1 : (trieFree (some (trieAllocNode.setCh c))).2 = 1 := by
          rw [trieFree_setCh]
          exact trieFree_alloc
        simp only [Trie.setChild, trieFree]
        rw [hcnt1] at hstep
        simp only [trieFree] at hset hstep ⊢
        omega
      | some ch0 =>
        simp only [hch]
        have hwf0 : TrieWF ch0 := childAt_wf hwf hch
        have hwf1 : TrieWF (ch0.setCh c) := setCh_wf hwf0 c
        have hstep := trieAddWordGo_count hist rest (ch0.setCh c) hwf1 hrest
        refine ⟨setChild_wf hwf hstep.1 _, ?_⟩
        cases t with | mk ch fl cs =>
        cases hwf with | mk hl hc =>
        have hset := trieFreeList_set cs (getCharIndex c)
          (some (trieAddWordGo hist (ch0.setCh c) rest).1)
          (by rw [hl]; exact hcz)
        have hchd : cs.getD (getCharIndex c) none = some ch0 := hch
        rw [hchd] at hset
        have hcnt1 : (trieFree (some (ch0.setCh c))).2 = (trieFree (some ch0)).2 :=
          trieFree_setCh ch0 c
        simp only [Trie.setChild, trieFree]
        rw [hcnt1] at hstep
        omega

theorem trieBuild_count (hist : List Nat) (maxLen : Nat) :
    ∀ (ws : List (List Char)) (t : Trie), TrieWF t →
    (∀ w ∈ ws, ∀ c ∈ w, getCharIndex c < ALPHABET_SIZE) →
    ∀ t2 a wc, trieBuild hist maxLen ws t = some (t2, a, wc) →
    TrieWF t2 ∧ (trieFree (some t2)).2 = (trieFree (some t)).2 + a
  | [], t, hwf, _, t2, a, wc => by
    intro hr
    simp only [trieBuild, Option.some_inj, Prod.mk.injEq] at hr
    obtain ⟨h1, h2, h3⟩ := hr
    subst h1
    exact ⟨hwf, by omega⟩
  | w :: rest, t, hwf, hws, t2, a, wc => by
    intro hr
    have hwrest : ∀ w' ∈ rest, ∀ c ∈ w', getCharIndex c < ALPHABET_SIZE :=
      fun w' hw' => hws w' (by simp [hw'])
    simp only [trieBuild] at hr
    split at hr
    case isTrue hlen =>
      split at hr
      case h_1 => exact Option.noConfusion hr
      case h_2 t1 a1 added1 heq =>
        cases w with
        | nil => exact Option.noConfusion heq
        | cons c cw =>
          have hgo := trieAddWordGo_count hist (c :: cw) t hwf (hws _ (by simp))
          have hgoeq : trieAddWordGo hist t (c :: cw) = (t1, a1, added1) := by
            have hsome : some (trieAddWordGo hist t (c :: cw)) = some (t1, a1, added1) := heq
            exact Option.some_inj.mp hsome
          rw [hgoeq] at hgo
          dsimp only at hgo
          split at hr
          case h_1 => exact Option.noConfusion hr
          case h_2 t2x a2 wc2 heq2 =>
            simp only [Option.some_inj, Prod.mk.injEq] at hr
            obtain ⟨h1, h2, h3⟩ := hr
            have hrec := trieBuild_count hist maxLen rest t1 hgo.1 hwrest t2x a2 wc2 heq2
            subst h1
            refine ⟨hrec.1, ?_⟩
            rw [hrec.2, hgo.2]
            omega
    case isFalse =>
      exact trieBuild_count hist maxLen rest t hwf hwrest t2 a wc hr

-- Histogram lemmas: the pruning filter is sound because a letter whose
-- histogram count is zero does not occur on the board at all.

theorem getD_incr_mono (h : List Nat) (ai tgt : Nat) :
    h.getD tgt 0 ≤ (h.set ai (h.getD ai 0 + 1)).getD tgt 0 := by
  by_cases he : ai = tgt
  · subst he
    by_cases hlt : ai < h.length
    · rw [getD_set_self _ _ _ _ hlt]
      omega
    · rw [List.set_eq_of_length_le (by omega)]
  · rw [getD_set_ne _ _ _ he]

theorem histIncr_mono (boardSize : Nat) (board : List Char) (row : Nat) (h2 : List Nat)
    (col tgt : Nat) : h2.getD tgt 0 ≤ (histIncr boardSize board row h2 col).getD tgt 0 :=
  getD_incr_mono h2 _ tgt

theorem histRow_mono (boardSize : Nat) (board : List Char) (h : List Nat) (row : Nat)
    {tgt v : Nat} (hv : v ≤ h.getD tgt 0) :
    v ≤ (histRow boardSize board h row).getD tgt 0 := by
  unfold histRow
  refine foldl_inv (Q := fun h' => v ≤ h'.getD tgt 0) _ _ h hv ?_
  intro acc x _ hq
  exact le_trans hq (histIncr_mono boardSize board row acc x tgt)

theorem histIncr_length (boardSize : Nat) (board : List Char) (row : Nat) (h2 : List Nat)
    (col : Nat) : (histIncr boardSize board row h2 col).length = h2.length := by
  unfold histIncr
  dsimp only
  rw [List.length_set]

theorem histFold_length (boardSize : Nat) (board : List Char) (row : Nat)
    (l : List Nat) (h : List Nat) :
    (l.foldl (histIncr boardSize board row) h).length = h.length := by
  refine foldl_inv (Q := fun h' => h'.length = h.length) _ l h rfl ?_
  intro acc x _ hq
  rw [histIncr_length, hq]

theorem histRow_length (boardSize : Nat) (board : List Char) (h : List Nat) (row : Nat) :
    (histRow boardSize board h row).length = h.length :=
  histFold_length boardSize board row _ h

theorem histRowFold_length (boardSize : Nat) (board : List Char)
    (l : List Nat) (h : List Nat) :
    (l.foldl (histRow boardSize board) h).length = h.length := by
  refine foldl_inv (Q := fun h' => h'.length = h.length) _ l h rfl ?_
  intro acc x _ hq
  rw [histRow_length, hq]

theorem histIncr_hit (boardSize : Nat) (board : List Char) (row col : Nat)
    (h2 : List Nat)
    (hai : getCharIndex
      (board.getD (getBoardIndex boardSize (Int.ofNat row) (Int.ofNat col)).toNat nullCh)
      < h2.length) :
    1 ≤ (histIncr boardSize board row h2 col).getD
      (getCharIndex
        (board.getD (getBoardIndex boardSize (Int.ofNat row) (Int.ofNat col)).toNat nullCh))
      0 := by
  unfold histIncr
  dsimp only
  rw [getD_set_self _ _ _ _ hai]
  omega

theorem histRow_hit (n : Nat) (board : List Char) (row : Nat) (H1 : List Nat)
    (col : Nat) (hcol : col < n) (hlen : H1.length = ALPHABET_SIZE)
    {c : Char} (hc : isLowerAZ c)
    (hletter : board.getD (getBoardIndex n (Int.ofNat row) (Int.ofNat col)).toNat nullCh = c) :
    1 ≤ (histRow n board H1 row).getD (getCharIndex c) 0 := by
  obtain ⟨k1, k2, hsplit2⟩ := List.append_of_mem (List.mem_range.mpr hcol)
  unfold histRow
  rw [hsplit2, List.foldl_append, List.foldl_cons]
  have hlen2 : (k1.foldl (histIncr n board row) H1).length = ALPHABET_SIZE := by
    rw [histFold_length, hlen]
  have hhit := histIncr_hit n board row col (k1.foldl (histIncr n board row) H1)
    (by rw [hletter, hlen2]; exact getCharIndex_lt hc)
  rw [hletter] at hhit
  refine foldl_inv (Q := fun (h' : List Nat) => 1 ≤ h'.getD (getCharIndex c) 0) _ k2 _ hhit ?_
  intro acc x _ hq
  exact le_trans hq (histIncr_mono n board row acc x _)

theorem buildHistogram_pos {n : Nat} {board : List Char} {c : Char}
    (hc : isLowerAZ c) (hmem : c ∈ board) (hblen : board.length = n * n) :
    (buildHistogram n board).getD (getCharIndex c) 0 ≠ 0 := by
  obtain ⟨m, hmlt0, hcm⟩ := List.mem_iff_getElem.mp hmem
  have hmlt : m < n * n := by rw [← hblen]; exact hmlt0
  have hn : 0 < n := by
    rcases Nat.eq_zero_or_pos n with h0 | h0
    · rw [h0] at hmlt
      simp at hmlt
    · exact h0
  have hr : m / n < n := (Nat.div_lt_iff_lt_mul hn).mpr hmlt
  have hcl : m % n < n := Nat.mod_lt _ hn
  have hidx : (getBoardIndex n (Int.ofNat (m / n)) (Int.ofNat (m % n))).toNat = m := by
    unfold getBoardIndex
    have hcast : (n : Int) * (Int.ofNat (m / n)) + Int.ofNat (m % n)
        = ((n * (m / n) + m % n : Nat) : Int) := by
      simp only [Int.ofNat_eq_coe]
      norm_cast
    rw [hcast, Int.toNat_natCast, Nat.div_add_mod]
  have hletter : board.getD
      (getBoardIndex n (Int.ofNat (m / n)) (Int.ofNat (m % n))).toNat nullCh = c := by
    rw [hidx, List.getD_eq_getElem _ _ hmlt0, hcm]
  obtain ⟨l1, l2, hsplit⟩ := List.append_of_mem (List.mem_range.mpr hr)
  have hlen1 : (l1.foldl (histRow n board) (List.replicate ALPHABET_SIZE 0)).length
      = ALPHABET_SIZE := by
    rw [histRowFold_length, List.length_replicate]
  have hinner : 1 ≤ (histRow n board
      (l1.foldl (histRow n board) (List.replicate ALPHABET_SIZE 0)) (m / n)).getD
      (getCharIndex c) 0 :=
    histRow_hit n board (m / n) _ (m % n) hcl hlen1 hc hletter
  have houter : 1 ≤ (buildHistogram n board).getD (getCharIndex c) 0 := by
    unfold buildHistogram
    rw [hsplit, List.foldl_append, List.foldl_cons]
    refine foldl_inv (Q := fun (h' : List Nat) => 1 ≤ h'.getD (getCharIndex c) 0) _ l2 _
      hinner ?_
    intro acc x _ hq
    exact histRow_mono n board acc x hq
  omega

-- Re-insertion lemmas: inserting a word that is already present changes
-- nothing in the tree, allocates nothing, but still sets wordAdded.

theorem setWordFlag_idem (t : Trie) : t.setWordFlag.setWordFlag = t.setWordFlag := by
  cases t with | mk ch fl cs =>
  simp only [Trie.setWordFlag]
  rw [Nat.or_assoc, Nat.or_self]

theorem setCh_chOf (t : Trie) (c : Char) : (t.setCh c).chOf = c := by
  cases t with | mk ch fl cs => rfl

theorem setCh_self (t : Trie) : t.setCh t.chOf = t := by
  cases t with | mk ch fl cs => rfl

theorem setChild_setChild (t : Trie) (ix : Nat) (x y : Option Trie) :
    (t.setChild ix x).setChild ix y = t.setChild ix y := by
  cases t with | mk ch fl cs =>
  simp only [Trie.setChild]
  rw [List.set_set]

theorem childAt_setChild_self {t : Trie} (hwf : TrieWF t) {ix : Nat}
    (hix : ix < ALPHABET_SIZE) (x : Option Trie) : (t.setChild ix x).childAt ix = x := by
  cases t with | mk ch fl cs =>
  cases hwf with | mk hl hc =>
  simp only [Trie.setChild, Trie.childAt]
  exact getD_set_self _ _ _ _ (by rw [hl]; exact hix)

theorem trieAddWordGo_chOf (hist : List Nat) (w : List Char) (t : Trie) :
    (trieAddWordGo hist t w).1.chOf = t.chOf := by
  cases w with
  | nil => cases t with | mk ch fl cs => rfl
  | cons c rest =>
    simp only [trieAddWordGo]
    split
    · rfl
    · dsimp only
      cases t with | mk ch fl cs => rfl

theorem trieAddWordGo_idem (hist : List Nat) : ∀ (w : List Char) (t : Trie), TrieWF t →
    (∀ c ∈ w, getCharIndex c < ALPHABET_SIZE) →
    ∀ t1 k, trieAddWordGo hist t w = (t1, k, true) →
    trieAddWordGo hist t1 w = (t1, 0, true)
  | [], t, hwf, _, t1, k => by
    intro heq
    simp only [trieAddWordGo, Prod.mk.injEq] at heq ⊢
    obtain ⟨h1, _, _⟩ := heq
    rw [← h1, setWordFlag_idem]
    trivial
  | c :: rest, t, hwf, hcs, t1, k => by
    intro heq
    have hrest : ∀ c' ∈ rest, getCharIndex c' < ALPHABET_SIZE :=
      fun c' hc' => hcs c' (by simp [hc'])
    have hcz : getCharIndex c < ALPHABET_SIZE := hcs c (by simp)
    simp only [trieAddWordGo] at heq
    split at heq
    case isTrue hz => exact absurd heq (by simp)
    case isFalse hz =>
      cases hch : t.childAt (getCharIndex c) with
      | none =>
        rw [hch] at heq
        dsimp only at heq
        rcases hstep : trieAddWordGo hist (trieAllocNode.setCh c) rest with ⟨s1, k1, b1⟩
        rw [hstep] at heq
        simp only [Prod.mk.injEq] at heq
        obtain ⟨he1, he2, he3⟩ := heq
        rw [he3] at hstep
        have hwf1 : TrieWF s1 := by
          have h := (trieAddWordGo_count hist rest (trieAllocNode.setCh c)
            (setCh_wf trieAllocNode_wf c) hrest).1
          rw [hstep] at h
          exact h
        have hs1ch : s1.chOf = c := by
          have h := trieAddWordGo_chOf hist rest (trieAllocNode.setCh c)
          rw [hstep] at h
          rw [h, setCh_chOf]
        have hih := trieAddWordGo_idem hist rest (trieAllocNode.setCh c)
          (setCh_wf trieAllocNode_wf c) hrest s1 k1 hstep
        subst he1
        simp only [trieAddWordGo]
        rw [if_neg hz]
        rw [childAt_setChild_self hwf hcz]
        dsimp only
        rw [show s1.setCh c = s1 from by rw [← hs1ch, setCh_self]]
        rw [hih]
        rw [setChild_setChild]
        exact rfl
      | some ch0 =>
        rw [hch] at heq
        dsimp only at heq
        rcases hstep : trieAddWordGo hist (ch0.setCh c) rest with ⟨s1, k1, b1⟩
        rw [hstep] at heq
        simp only [Prod.mk.injEq] at heq
        obtain ⟨he1, he2, he3⟩ := heq
        rw [he3] at hstep
        have hwf0 : TrieWF ch0 := childAt_wf hwf hch
        have hs1ch : s1.chOf = c := by
          have h := trieAddWordGo_chOf hist rest (ch0.setCh c)
          rw [hstep] at h
          rw [h, setCh_chOf]
        have hih := trieAddWordGo_idem hist rest (ch0.setCh c)
          (setCh_wf hwf0 c) hrest s1 k1 hstep
        subst he1
        simp only [trieAddWordGo]
        rw [if_neg hz]
        rw [childAt_setChild_self hwf hcz]
        dsimp only
        rw [show s1.setCh c = s1 from by rw [← hs1ch, setCh_self]]
        rw [hih]
        rw [setChild_setChild]
        exact rfl

theorem trieAddWordGo_zero (hist : List Nat) : ∀ (w : List Char) (t : Trie) (c : Char),
    c ∈ w → hist.getD (getCharIndex c) 0 = 0 →
    (trieAddWordGo hist t w).2.2 = false
  | [], _, c, hc, _ => absurd hc (by simp)
  | c' :: rest, t, c, hc, hz => by
    simp only [trieAddWordGo]
    split
    case isTrue => rfl
    case isFalse hz' =>
      dsimp only
      rcases List.mem_cons.mp hc with he | hmem
      · rw [he] at hz
        exact absurd hz hz'
      · exact trieAddWordGo_zero hist rest _ c hmem hz

-- The claims.

/-- C1, counterexample: on the board `ab`/`cd` with dictionary
`{ab, b, c, d}`, the word "ab" is reported with coordinates (0,1), the
current (last) cell of its path, not the originating cell (0,0) where
the search began, so the claim as stated is false. -/
theorem c1_counterexample :
    (playBoggle abcdBoard abcdDict).map
      (fun r => r.2.map (fun f => ((f.row, f.col), f.path.headD (0, 0), f.path.getLastD (0, 0)))) =
    some [(((0 : Int), (1 : Int)), ((0 : Int), (0 : Int)), ((0 : Int), (1 : Int))),
          ((0, 1), (0, 1), (0, 1)), ((1, 0), (1, 0), (1, 0)), ((1, 1), (1, 1), (1, 1))] ∧
    ¬(((0 : Int), (1 : Int)) = ((0 : Int), (0 : Int))) :=
  ⟨by rfl, by decide⟩

/-- C1, amended: `findSolution` prints `(row, col)` of the frame that
found the word, which is the last cell of the word's path, not the cell
where depth 0 began. -/
theorem c1_report_uses_current_cell : ∀ (s0 : BoggleCB) (dict : Trie), WF0 s0 →
    ∀ r, playBoggle s0 dict = some r → ∀ f ∈ r.2,
    f.path ≠ [] ∧ f.path.getLast? = some (f.row, f.col) := by
  intro s0 dict hwf r hr f hf
  have h := (playBoggle_spec s0 dict hwf r hr).2.2 f hf
  exact ⟨h.1, h.2.1⟩

/-- Witness for the amended C1 at the 1x1 board. -/
theorem c1_witness :
    oneFound.path ≠ [] ∧ oneFound.path.getLast? = some (oneFound.row, oneFound.col) :=
  c1_report_uses_current_cell oneBoard oneDict (by decide) oneRes (by rfl) oneFound (by decide)

/-- C2: on the 1x1 board "a" with word list `{aa}` (filtered away by the
length bound), the root has no child for letter a, yet `playBoggle`
still calls `findSolution` on the NULL child, whose
`assert(node != NULL)` aborts the program — the cell is not skipped. -/
theorem c2_null_root_child_aborts :
    playBoggle oneBoard aaDict = none ∧ aaDict.childAt (getCharIndex 'a') = none :=
  ⟨by rfl, by rfl⟩

/-- C3, counterexample: on the board `ab`/`cd`, inserting "ax" (letter x
has histogram count zero) allocates one trie node for the prefix "a"
before the zero-count letter aborts the word — not zero nodes. -/
theorem c3_counterexample :
    (trieAddWord abcdHist initBoggle.1 ['a', 'x']).map (fun r => (r.2.1, r.2.2)) =
      some (1, false) ∧ (1 : Nat) ≠ 0 :=
  ⟨by rfl, by decide⟩

/-- C3, amended: a word longer than the board is skipped before touching
the tree; a word containing a zero-frequency letter is never marked as a
word (`wordAdded` stays false) and is never reported as a solution, but
trie nodes for the prefix before the first zero-frequency letter may be
allocated. -/
theorem c3_pruning_amended :
    (∀ (hist : List Nat) (maxLen : Nat) (w : List Char) (ws : List (List Char)) (t : Trie),
      maxLen < w.length →
      trieBuild hist maxLen (w :: ws) t = trieBuild hist maxLen ws t) ∧
    (∀ (hist : List Nat) (t : Trie) (w : List Char) (c : Char), c ∈ w →
      hist.getD (getCharIndex c) 0 = 0 →
      (trieAddWord hist t w).map (fun x => x.2.2) ≠ some true) ∧
    (∀ (s0 : BoggleCB) (dict : Trie) (r : BoggleCB × List Found) (c : Char),
      WF0 s0 → playBoggle s0 dict = some r → isLowerAZ c →
      (buildHistogram s0.boardSize s0.board).getD (getCharIndex c) 0 = 0 →
      ∀ f ∈ r.2, c ∉ f.word) := by
  refine ⟨?_, ?_, ?_⟩
  · intro hist maxLen w ws t hlen
    simp only [trieBuild]
    rw [if_neg (by omega)]
  · intro hist t w c hc hz
    cases w with
    | nil => simp [trieAddWord]
    | cons c' rest =>
      rw [show trieAddWord hist t (c' :: rest) = some (trieAddWordGo hist t (c' :: rest))
        from rfl]
      rw [show (some (trieAddWordGo hist t (c' :: rest))).map (fun x => x.2.2) =
        some ((trieAddWordGo hist t (c' :: rest)).2.2) from rfl]
      rw [trieAddWordGo_zero hist (c' :: rest) t c hc hz]
      simp
  · intro s0 dict r c hwf hr hlc hz f hf
    have hfo := (playBoggle_spec s0 dict hwf r hr).2.2 f hf
    intro hcw
    have hcb : c ∈ s0.board := hfo.2.2.2.2.2.2.1 c hcw
    exact buildHistogram_pos hlc hcb hwf.1 hz

/-- Witness for the amended C3: a too-long word touches nothing, "ax" is
never marked, and x is not in the reported word on the 1x1 board. -/
theorem c3_witness :
    trieBuild [] 0 [['a']] trieAllocNode = trieBuild [] 0 [] trieAllocNode ∧
    (trieAddWord abcdHist trieAllocNode ['a', 'x']).map (fun x => x.2.2) ≠ some true ∧
    'x' ∉ oneFound.word :=
  ⟨c3_pruning_amended.1 [] 0 ['a'] [] trieAllocNode (by decide),
   c3_pruning_amended.2.1 abcdHist trieAllocNode ['a', 'x'] 'x' (by decide) (by decide),
   c3_pruning_amended.2.2 oneBoard oneDict oneRes 'x' (by decide) (by rfl) (by decide)
     (by decide) oneFound (by decide)⟩

/-- C4, counterexample: re-inserting "ab" into the trie that already
holds it reports `wordAdded = true`, not false as claimed (the code sets
`wordAdded` whenever the loop consumes the whole word). -/
theorem c4_counterexample :
    (trieAddWord (List.replicate 26 1) tabTrie ['a', 'b']).map (fun x => (x.2.1, x.2.2)) =
      some (0, true) ∧ ((0, true) : Nat × Bool) ≠ (0, false) :=
  ⟨by rfl, by decide⟩

/-- C4, amended: re-inserting a word that was fully inserted before
leaves the trie bit-for-bit unchanged and allocates no nodes (so there
is still only one terminal marking), but the second insertion again
reports `wordAdded = true`, not false. -/
theorem c4_reinsert_reports_true : ∀ (hist : List Nat) (t : Trie) (w : List Char),
    TrieWF t → (∀ c ∈ w, getCharIndex c < ALPHABET_SIZE) →
    ∀ t1 k, trieAddWord hist t w = some (t1, k, true) →
    trieAddWord hist t1 w = some (t1, 0, true) := by
  intro hist t w hwf hcs t1 k heq
  cases w with
  | nil => exact absurd heq (by simp [trieAddWord])
  | cons c rest =>
    rw [show trieAddWord hist t (c :: rest) = some (trieAddWordGo hist t (c :: rest)) from rfl,
      Option.some_inj] at heq
    rw [show trieAddWord hist t1 (c :: rest) = some (trieAddWordGo hist t1 (c :: rest)) from rfl,
      trieAddWordGo_idem hist (c :: rest) t hwf hcs t1 k heq]

/-- Witness for the amended C4 at the two-letter word "ab". -/
theorem c4_witness :
    trieAddWord (List.replicate 26 1) tabTrie ['a', 'b'] = some (tabTrie, 0, true) :=
  c4_reinsert_reports_true (List.replicate 26 1) trieAllocNode ['a', 'b'] trieAllocNode_wf
    (by decide) tabTrie 2 (by rfl)

/-- C5: every `findSolution` call returns with the control block exactly
as it received it (mask and buffer restored), and when the full solve
completes the in-use mask is entirely false and the word buffer is all
NUL bytes. -/
theorem c5_mask_restoration :
    (∀ (fuel : Nat) (s : BoggleCB) (row col : Int) (node : Trie) (ix : Nat)
      (path : List (Int × Int)), StateInv s path ix → PathOK s.boardSize path row col →
      (findSolution fuel s row col node ix path).1 = s) ∧
    (∀ (s0 : BoggleCB) (dict : Trie) (r : BoggleCB × List Found), WF0 s0 →
      playBoggle s0 dict = some r →
      r.1.used = List.replicate (s0.boardSize * s0.boardSize) false ∧
      r.1.search = List.replicate MAX_WORD_LENGTH nullCh) := by
  constructor
  · intro fuel s row col node ix path hs hp
    exact (findSolution_spec fuel s row col node ix path hs hp).1
  · intro s0 dict r hwf hr
    exact ⟨(playBoggle_spec s0 dict hwf r hr).1, (playBoggle_spec s0 dict hwf r hr).2.1⟩

/-- Witness for C5 at the 1x1 board. -/
theorem c5_witness :
    (findSolution 2 oneMarked 0 0 oneNode 1 [(0, 0)]).1 = oneMarked ∧
    (oneRes.1.used = List.replicate (oneBoard.boardSize * oneBoard.boardSize) false ∧
     oneRes.1.search = List.replicate MAX_WORD_LENGTH nullCh) :=
  ⟨c5_mask_restoration.1 2 oneMarked 0 0 oneNode 1 [(0, 0)]
      (by constructor <;> decide)
      ⟨by decide, by decide, by decide, List.chain'_singleton _, by decide⟩,
   c5_mask_restoration.2 oneBoard oneDict oneRes (by decide) (by rfl)⟩

/-- C6: no cell index appears twice within the path of any reported
word. -/
theorem c6_no_cell_reuse : ∀ (s0 : BoggleCB) (dict : Trie) (r : BoggleCB × List Found),
    WF0 s0 → playBoggle s0 dict = some r →
    ∀ f ∈ r.2, (f.path.map (toIdx s0.boardSize)).Nodup := by
  intro s0 dict r hwf hr f hf
  exact ((playBoggle_spec s0 dict hwf r hr).2.2 f hf).2.2.2.2.1

/-- Witness for C6 at the 2x2 board. -/
theorem c6_witness : (abFound.path.map (toIdx abcdBoard.boardSize)).Nodup :=
  c6_no_cell_reuse abcdBoard abcdDict abcdRes (by decide) (by rfl) abFound (by decide)

/-- C7: consecutive cells in every reported word's path are
Chebyshev-adjacent and never identical. -/
theorem c7_chebyshev_adjacent : ∀ (s0 : BoggleCB) (dict : Trie) (r : BoggleCB × List Found),
    WF0 s0 → playBoggle s0 dict = some r →
    ∀ f ∈ r.2, List.Chain' chebAdj f.path := by
  intro s0 dict r hwf hr f hf
  exact ((playBoggle_spec s0 dict hwf r hr).2.2 f hf).2.2.2.1

/-- Witness for C7 at the 2x2 board. -/
theorem c7_witness : List.Chain' chebAdj abFound.path :=
  c7_chebyshev_adjacent abcdBoard abcdDict abcdRes (by decide) (by rfl) abFound (by decide)

/-- C8: the search terminates — once the fuel exceeds the number of
board cells the result no longer depends on it (each recursive call
marks one more unused cell, so at most boardSize*boardSize nested calls
happen) — and the depth of every report is bounded by the cell count. -/
theorem c8_termination :
    (∀ (s : BoggleCB) (row col : Int) (node : Trie) (ix : Nat) (path : List (Int × Int))
      (f1 f2 : Nat), s.used.length = s.boardSize * s.boardSize →
      s.boardSize * s.boardSize + 1 ≤ f1 → s.boardSize * s.boardSize + 1 ≤ f2 →
      findSolution f1 s row col node ix path = findSolution f2 s row col node ix path) ∧
    (∀ (s0 : BoggleCB) (dict : Trie) (r : BoggleCB × List Found), WF0 s0 →
      playBoggle s0 dict = some r → ∀ f ∈ r.2,
      f.path.length ≤ s0.boardSize * s0.boardSize ∧ f.word.length = f.path.length) := by
  constructor
  · intro s row col node ix path f1 f2 hul h1 h2
    have hcnt : s.used.count false ≤ s.boardSize * s.boardSize := by
      rw [← hul]
      exact List.count_le_length _ _
    rw [findSolution_fuel_ge s row col node ix path hul f1 (by omega),
        findSolution_fuel_ge s row col node ix path hul f2 (by omega)]
  · intro s0 dict r hwf hr f hf
    have h := (playBoggle_spec s0 dict hwf r hr).2.2 f hf
    exact ⟨h.2.2.2.2.2.2.2, h.2.2.2.2.2.1⟩

/-- Witness for C8 at the 1x1 board. -/
theorem c8_witness :
    findSolution 2 oneMarked 0 0 oneNode 1 [(0, 0)] =
      findSolution 5 oneMarked 0 0 oneNode 1 [(0, 0)] ∧
    (oneFound.path.length ≤ oneBoard.boardSize * oneBoard.boardSize ∧
     oneFound.word.length = oneFound.path.length) :=
  ⟨c8_termination.1 oneMarked 0 0 oneNode 1 [(0, 0)] 2 5 (by decide) (by decide) (by decide),
   c8_termination.2 oneBoard oneDict oneRes (by decide) (by rfl) oneFound (by decide)⟩

/-- C9: after building the dictionary from any word list (of letters)
and tearing it down, the number of `free` calls equals the number of
allocation calls (the root's plus those of `trieBuild`), and the
dictionary handle ends up NULL. -/
theorem c9_alloc_free_parity : ∀ (hist : List Nat) (maxLen : Nat) (ws : List (List Char))
    (t2 : Trie) (a wc : Nat),
    (∀ w ∈ ws, ∀ c ∈ w, getCharIndex c < ALPHABET_SIZE) →
    trieBuild hist maxLen ws initBoggle.1 = some (t2, a, wc) →
    trieFree (some t2) = (none, initBoggle.2 + a) := by
  intro hist maxLen ws t2 a wc hcs hr
  have h := trieBuild_count hist maxLen ws initBoggle.1 trieAllocNode_wf hcs t2 a wc hr
  rw [Prod.ext_iff]
  refine ⟨trieFree_fst _, ?_⟩
  show (trieFree (some t2)).2 = initBoggle.2 + a
  rw [h.2]
  rw [show (trieFree (some initBoggle.1)).2 = 1 from trieFree_alloc]
  rfl

/-- Witness for C9 at the one-word list. -/
theorem c9_witness :
    (∀ w ∈ [['a']], ∀ c ∈ w, getCharIndex c < ALPHABET_SIZE) ∧
    trieFree (some aTrie) = (none, initBoggle.2 + 1) :=
  ⟨by decide,
   c9_alloc_free_parity (List.replicate 26 1) 1 [['a']] aTrie 1 1 (by decide) (by rfl)⟩

/-- C10: under the call-site guards of `findSolution` (row and column
both checked against `[0, boardSize)` before `isValid` runs), the flat
index passed to `isValid` lies in `[0, boardSize^2 - 1]`, within the
bounds of both the `used` and `board` arrays — even though `isValid`'s
own upper check `boardIndex <= maxBoardSize` would also accept the
out-of-range index `boardSize^2` (last conjunct), that value is never
passed. -/
theorem c10_isValid_index_bounds : ∀ (s : BoggleCB) (newRow newCol : Int),
    s.maxBoardSize = ((s.boardSize * s.boardSize : Nat) : Int) →
    s.used.length = s.boardSize * s.boardSize →
    s.board.length = s.boardSize * s.boardSize →
    0 ≤ newRow → newRow < (s.boardSize : Int) → 0 ≤ newCol → newCol < (s.boardSize : Int) →
    (0 ≤ getBoardIndex s.boardSize newRow newCol ∧
     (getBoardIndex s.boardSize newRow newCol).toNat < s.used.length ∧
     (getBoardIndex s.boardSize newRow newCol).toNat < s.board.length) ∧
    ((s.boardSize * s.boardSize : Nat) : Int) ≤ s.maxBoardSize := by
  intro s r c hmbs hul hbl hr0 hrN hc0 hcN
  obtain ⟨hge, hlt⟩ := getBoardIndex_bounds hr0 hrN hc0 hcN
  refine ⟨⟨hge, ?_, ?_⟩, by rw [hmbs]⟩
  · rw [hul]
    omega
  · rw [hbl]
    omega

/-- Witness for C10 at the 1x1 board. -/
theorem c10_witness :
    (0 ≤ getBoardIndex oneBoard.boardSize 0 0 ∧
     (getBoardIndex oneBoard.boardSize 0 0).toNat < oneBoard.used.length ∧
     (getBoardIndex oneBoard.boardSize 0 0).toNat < oneBoard.board.length) ∧
    ((oneBoard.boardSize * oneBoard.boardSize : Nat) : Int) ≤ oneBoard.maxBoardSize :=
  c10_isValid_index_bounds oneBoard 0 0 (by decide) (by decide) (by decide) (by decide)
    (by decide) (by decide) (by decide)
